import Mathlib

/-!
# Verification of the dotagent tree⇄list conversion core

This file shallowly embeds the core of the `dotagent` repository
(`src/importers.ts`, `src/exporters.ts`, `src/yaml-parser.ts`) in Lean 4 and
proves properties of the embedding.

Modelling conventions:
* JavaScript strings are modelled as `Str := List Char`; the JS string
  operations used by the source (`split`, `join`, `replace` with the concrete
  regexes appearing in the source, `endsWith`, `trim`, `toLowerCase`,
  `includes`, `padStart`) are implemented on `Str` with their JS semantics.
* The filesystem is modelled as a tree of named entries (`FSNode`); `mkdirSync`
  / `writeFileSync` become pure insertion into the tree and
  `readdirSync`-driven recursion becomes a fuel-indexed walk (the fuel is only
  a totality device; all uses supply enough fuel to be equivalent to the
  unbounded recursion of the source).
* gray-matter serialisation is modelled asymmetrically, as in the source:
  a written file stores the structured frontmatter plus a body, and
  `matter.stringify` with the safe engine is its rendering through the
  embedded `yaml-parser.ts` codec, while the plain `matter(content)` parse
  of `importAgent` is the standard engine on that rendered text — it fails
  (throws) exactly where the rendered text carries an unquoted `*`-leading
  scalar, and on success returns the stored fields.
* `localeCompare`-based sorting is modelled as code-point lexicographic
  comparison; the tests of the repository only rely on it being a fixed total
  order on names.
-/

namespace DotAgent

/-- JS strings as lists of characters. -/
abbrev Str := List Char

/-! ## String helpers (JS semantics) -/

/-- The `.md` extension. -/
def mdExt : Str := ['.', 'm', 'd']

/-- The `.local` filename marker. -/
def localExt : Str := ['.', 'l', 'o', 'c', 'a', 'l']

/-- The literal segment name `private`. -/
def privateSeg : Str := ['p', 'r', 'i', 'v', 'a', 't', 'e']

/-- The fallback file basename `rule` used when a rule has an empty id. -/
def ruleFallback : Str := ['r', 'u', 'l', 'e']

/-- Does `s` end with `.md`?  (JS `name.endsWith('.md')` / regex `\.md$`.) -/
def endsWithMd (s : Str) : Bool := mdExt.isSuffixOf s

/-- Does `s` end with `.local`?  (regex `\.local$`.) -/
def endsLocal (s : Str) : Bool := localExt.isSuffixOf s

/-- Does `s` start with at least two digits followed by a dash?
(regex `^\d{2,}-`.) -/
def hasOrdinalMark (s : Str) : Bool :=
  decide (2 ≤ (s.takeWhile Char.isDigit).length) &&
    decide ((s.drop (s.takeWhile Char.isDigit).length).head? = some '-')

/-- Model of the replace with regex `^\d{2,}-` and empty replacement. -/
def stripOrdinalMark (s : Str) : Str :=
  if hasOrdinalMark s then s.drop ((s.takeWhile Char.isDigit).length + 1) else s

/-- Model of the replace with regex `\.local$` and empty replacement. -/
def stripLocalMark (s : Str) : Str :=
  if endsLocal s then s.take (s.length - 6) else s

/-- Model of the replace with regex `\.md$` and empty replacement. -/
def stripMdExt (s : Str) : Str :=
  if endsWithMd s then s.take (s.length - 3) else s

/-- JS `s.split(sep)` for a single-character separator. -/
def splitOnChar (c : Char) : Str → List Str
  | [] => [[]]
  | x :: xs =>
    match splitOnChar c xs with
    | [] => [[x]]
    | s :: rest => if x = c then [] :: s :: rest else (x :: s) :: rest

/-- JS `parts.join(sep)` for a single-character separator. -/
def joinChar (c : Char) : List Str → Str
  | [] => []
  | [s] => s
  | s :: rest => s ++ c :: joinChar c rest

/-- `id.split('/')`. -/
def splitSlash (s : Str) : List Str := splitOnChar '/' s

/-- `segments.join('/')`. -/
def joinSlash (ss : List Str) : Str := joinChar '/' ss

/-- Whitespace characters removed by JS `String.prototype.trim`
(ASCII fragment; the source only ever trims markdown text). -/
def isJsWs (c : Char) : Bool :=
  c = ' ' || c = '\t' || c = '\n' || c = '\r' || c = '\x0b' || c = '\x0c'

/-- JS `s.trim()`. -/
def jsTrim (s : Str) : Str :=
  ((s.dropWhile isJsWs).reverse.dropWhile isJsWs).reverse

/-- JS `s.toLowerCase()` (ASCII fragment). -/
def toLowerStr (s : Str) : Str := s.map Char.toLower

/-- JS `String(n).padStart(3, '0')`. -/
def pad3 (n : Nat) : Str :=
  let s := (toString n).data
  if 3 ≤ s.length then s else List.replicate (3 - s.length) '0' ++ s

/-! ## PathIdCodec

`encode` is the filename/subdirectory construction of `exportToAgent`
(src/exporters.ts:162–186); `decode` is the id derivation of `importAgent`
(src/importers.ts:238–245).  Paths are represented both as segment lists
(for the filesystem model) and as `/`-joined strings (as the import code
sees them). -/

/-- The list of path segments (directories then filename) that `exportToAgent`
creates for a rule with the given id, privacy flag and private-ordinal.
Node's `path.join` drops empty components, hence the `filter`. -/
def exportPath (id : Str) (priv : Bool) (ordinal : Nat) : List Str :=
  if id ≠ [] ∧ '/' ∈ id then
    -- nested branch: parts.pop() becomes the filename, the rest subdirectories
    ((splitSlash id).dropLast.filter (fun s => s ≠ [])) ++
      [(splitSlash id).getLastD [] ++ mdExt]
  else if priv then
    [privateSeg, pad3 ordinal ++ ['-'] ++ (if id = [] then ruleFallback else id) ++ mdExt]
  else
    [(if id = [] then ruleFallback else id) ++ mdExt]

/-- The `/`-joined relative path of an exported rule file. -/
def encodeRelPath (id : Str) (priv : Bool) (ordinal : Nat) : Str :=
  joinSlash (exportPath id priv ordinal)

/-- Model of the global replace of backslash by slash. -/
def normSlashes (s : Str) : Str := s.map (fun c => if c = '\\' then '/' else c)

/-- Per-segment cleanup of the import id derivation:
the replaces with regexes `^\d{2,}-` and `\.local$`. -/
def stripSegMarks (s : Str) : Str := stripLocalMark (stripOrdinalMark s)

/-- `if (segments[0] === 'private') segments = segments.slice(1)`. -/
def dropLeadPrivate : List Str → List Str
  | [] => []
  | p :: rest => if p = privateSeg then rest else p :: rest

/-- The id that `importAgent` derives from a relative path
(src/importers.ts:238–245): strip `\.md$`, normalise `\` to `/`, split on
`/`, strip `^\d{2,}-` then `\.local$` from every segment, drop a leading
`private` segment, re-join. -/
def decodeRelPath (rel : Str) : Str :=
  joinSlash (dropLeadPrivate ((splitSlash (normSlashes (stripMdExt rel))).map stripSegMarks))

/-- Well-formedness of one id segment: nonempty, carries no numeric ordering
mark, no `.local` suffix, and is not the literal segment `private`. -/
def wfSeg (s : Str) : Prop :=
  s ≠ [] ∧ hasOrdinalMark s = false ∧ endsLocal s = false ∧ s ≠ privateSeg

instance (s : Str) : Decidable (wfSeg s) := by unfold wfSeg; infer_instance

/-- Well-formedness of a rule id: no backslashes and every `/`-segment
well-formed. -/
def wfId (id : Str) : Prop :=
  ('\\' ∉ id) ∧ ∀ s ∈ splitSlash id, wfSeg s

instance (id : Str) : Decidable (wfId id) := by unfold wfId; infer_instance

/-! ### Codec lemmas -/

/-- Pointwise-identity maps are the identity. -/
theorem map_eq_self_of {α : Type} (l : List α) (f : α → α) (h : ∀ x ∈ l, f x = x) :
    l.map f = l := by
  induction l with
  | nil => rfl
  | cons a l ih => simp [h a (by simp), ih (fun x hx => h x (by simp [hx]))]

theorem splitOnChar_ne_nil (c : Char) (s : Str) : splitOnChar c s ≠ [] := by
  induction s with
  | nil => simp [splitOnChar]
  | cons x xs ih =>
    simp only [splitOnChar]
    cases h : splitOnChar c xs with
    | nil => simp
    | cons s rest =>
      by_cases hx : x = c <;> simp [hx]

theorem joinChar_splitOnChar (c : Char) (s : Str) :
    joinChar c (splitOnChar c s) = s := by
  induction s with
  | nil => simp [splitOnChar, joinChar]
  | cons x xs ih =>
    simp only [splitOnChar]
    cases h : splitOnChar c xs with
    | nil => exact absurd h (splitOnChar_ne_nil c xs)
    | cons s rest =>
      rw [h] at ih
      by_cases hx : x = c
      · subst hx
        simp only [if_pos rfl]
        cases rest with
        | nil => simpa [joinChar] using ih
        | cons t ts => simpa [joinChar] using ih
      · simp only [if_neg hx]
        cases rest with
        | nil => simpa [joinChar] using ih
        | cons t ts => simpa [joinChar] using ih

theorem splitOnChar_of_not_mem {c : Char} {s : Str} (h : c ∉ s) :
    splitOnChar c s = [s] := by
  induction s with
  | nil => simp [splitOnChar]
  | cons x xs ih =>
    simp only [List.mem_cons, not_or] at h
    have hxc : ¬x = c := fun hx => h.1 hx.symm
    simp [splitOnChar, ih h.2, hxc]

theorem stripOrdinalMark_of_not {s : Str} (h : hasOrdinalMark s = false) :
    stripOrdinalMark s = s := by
  simp [stripOrdinalMark, h]

theorem stripLocalMark_of_not {s : Str} (h : endsLocal s = false) :
    stripLocalMark s = s := by
  simp [stripLocalMark, h]

theorem endsWithMd_append (s : Str) : endsWithMd (s ++ mdExt) = true := by
  simp [endsWithMd, List.isSuffixOf]

theorem stripMdExt_append (s : Str) : stripMdExt (s ++ mdExt) = s := by
  simp only [stripMdExt, endsWithMd_append, if_pos]
  have h : (s ++ mdExt).length - 3 = s.length := by
    simp [List.length_append, mdExt]
  rw [h]
  exact List.take_left s mdExt

/-- Joining after extending the last element extends the joined string. -/
theorem joinChar_append_last (c : Char) (l : List Str) (last ext : Str) :
    joinChar c (l ++ [last ++ ext]) = joinChar c (l ++ [last]) ++ ext := by
  induction l with
  | nil => simp [joinChar]
  | cons a l ih =>
    cases l with
    | nil => simp [joinChar, List.append_assoc]
    | cons b l' =>
      simp only [List.cons_append, joinChar, List.append_eq] at ih ⊢
      rw [ih]
      simp [List.append_assoc]

theorem wfId_ne_nil {id : Str} (hwf : wfId id) : id ≠ [] := by
  intro h
  subst h
  have := hwf.2 [] (by simp [splitSlash, splitOnChar])
  exact this.1 rfl

/-- On a well-formed id, the export path is the id's own segments with the
filename extended by `.md`. -/
theorem encodeRelPath_eq_append {id : Str} (hwf : wfId id) (ordinal : Nat) :
    encodeRelPath id false ordinal = id ++ mdExt := by
  have hne : id ≠ [] := wfId_ne_nil hwf
  by_cases hs : '/' ∈ id
  · have hcond : id ≠ [] ∧ '/' ∈ id := ⟨hne, hs⟩
    rw [encodeRelPath, exportPath, if_pos hcond]
    have hsplit := joinChar_splitOnChar '/' id
    have hnil := splitOnChar_ne_nil '/' id
    have hfilter : (splitSlash id).dropLast.filter (fun s => s ≠ []) =
        (splitSlash id).dropLast := by
      apply List.filter_eq_self.mpr
      intro a ha
      have ham : a ∈ splitSlash id := List.dropLast_subset _ ha
      simpa using (hwf.2 a ham).1
    rw [hfilter]
    have hlast : (splitSlash id).dropLast ++ [(splitSlash id).getLastD []] =
        splitSlash id := by
      cases hp : splitSlash id with
      | nil => exact absurd hp hnil
      | cons p ps =>
        rw [← hp, List.getLastD_eq_getLast?,
          List.getLast?_eq_getLast (splitSlash id) (by rw [hp]; simp),
          Option.getD_some]
        exact List.dropLast_append_getLast (by rw [hp]; simp)
    calc joinSlash ((splitSlash id).dropLast ++ [(splitSlash id).getLastD [] ++ mdExt])
        = joinSlash ((splitSlash id).dropLast ++ [(splitSlash id).getLastD []]) ++ mdExt :=
          joinChar_append_last '/' _ _ _
      _ = joinSlash (splitSlash id) ++ mdExt := by rw [hlast]
      _ = id ++ mdExt := by rw [joinSlash, splitSlash] at *; rw [hsplit]
  · have hcond : ¬(id ≠ [] ∧ '/' ∈ id) := fun h => hs h.2
    rw [encodeRelPath, exportPath, if_neg hcond, if_neg (by simp)]
    simp [joinSlash, joinChar, if_neg hne]

/-- Decoding is the left inverse of encoding on well-formed public ids
(the core of claim C2). -/
theorem decode_encode_of_wf {id : Str} (hwf : wfId id) (ordinal : Nat) :
    decodeRelPath (encodeRelPath id false ordinal) = id := by
  rw [encodeRelPath_eq_append hwf ordinal]
  unfold decodeRelPath
  rw [stripMdExt_append]
  have hmap : normSlashes id = id := by
    apply map_eq_self_of
    intro c hc
    have hcb : c ≠ '\\' := fun h => hwf.1 (h ▸ hc)
    simp [hcb]
  rw [hmap]
  have hsegmap : (splitSlash id).map stripSegMarks = splitSlash id := by
    apply map_eq_self_of
    intro s hs
    have hw := hwf.2 s hs
    rw [stripSegMarks, stripOrdinalMark_of_not hw.2.1, stripLocalMark_of_not hw.2.2.1]
  rw [hsegmap]
  have hnil := splitOnChar_ne_nil '/' id
  cases hp : splitSlash id with
  | nil => exact absurd hp hnil
  | cons p ps =>
    have hpmem : p ∈ splitSlash id := by rw [hp]; simp
    have hpw := hwf.2 p hpmem
    rw [dropLeadPrivate, if_neg hpw.2.2.2, ← hp]
    exact joinChar_splitOnChar '/' id

/-! ## Rule data model (src/types.ts)

`RuleMetadata` from src/types.ts.  Optional fields are `Option`s (`none`
models an absent/undefined key; the source treats `null` like absent when
exporting).  The open `[key: string]: unknown` extension map is modelled as
an association list of string keys and string values.  The TS field
`private` is called `priv` here (`private` is a Lean keyword). -/

/-- A frontmatter value that may be a single string or a list of strings
(`scope`, `globs`). -/
inductive SVal where
  | str (s : Str)
  | list (xs : List Str)
deriving DecidableEq, Repr

/-- `RuleMetadata` (src/types.ts:1–12). -/
structure RuleMetadata where
  id : Str
  alwaysApply : Option Bool := none
  scope : Option SVal := none
  triggers : Option (List Str) := none
  manual : Option Bool := none
  priority : Option Str := none
  description : Option Str := none
  globs : Option SVal := none
  priv : Option Bool := none
  extra : List (Str × Str) := []
deriving DecidableEq, Repr

/-- `RuleBlock` (src/types.ts:14–21); the unused source-position field is
omitted. -/
structure RuleBlock where
  metadata : RuleMetadata
  content : Str
deriving DecidableEq, Repr

/-- The frontmatter block of one `.md` file: as `RuleMetadata` but with an
optional `id`. -/
structure Frontmatter where
  id : Option Str := none
  alwaysApply : Option Bool := none
  scope : Option SVal := none
  triggers : Option (List Str) := none
  manual : Option Bool := none
  priority : Option Str := none
  description : Option Str := none
  globs : Option SVal := none
  priv : Option Bool := none
  extra : List (Str × Str) := []
deriving DecidableEq, Repr

/-- One stored `.md` file: its frontmatter and markdown body.
(gray-matter serialisation is abstracted as this pair.) -/
structure FileContent where
  fm : Frontmatter
  body : Str
deriving DecidableEq, Repr

/-- `ExportOptions` (src/types.ts:35–41), restricted to the field the
export code reads. -/
structure ExportOptions where
  includePrivate : Bool := false
deriving DecidableEq, Repr

/-! ## PrivacyClassifier and per-file import (src/importers.ts) -/

/-- Is `pat` a prefix of `s`?  (JS `startsWith`.) -/
def isPre : Str → Str → Bool
  | [], _ => true
  | _ :: _, [] => false
  | a :: as, b :: bs => a = b && isPre as bs

/-- Does `s` contain `pat` as a contiguous substring?  (JS `includes`.) -/
def isSubstr (pat : Str) : Str → Bool
  | [] => isPre pat []
  | c :: rest => isPre pat (c :: rest) || isSubstr pat rest

/-- `isPrivateRule` (src/importers.ts:8–11): lower-cased path contains
`.local.`, `/private/` or `\private\`. -/
def isPrivateRule (path : Str) : Bool :=
  let l := toLowerStr path
  isSubstr ['.', 'l', 'o', 'c', 'a', 'l', '.'] l ||
    isSubstr ('/' :: privateSeg ++ ['/']) l ||
    isSubstr ('\\' :: privateSeg ++ ['\\']) l

/-- The rule construction of the `.md`-file branch of `findMarkdownFiles`
inside `importAgent` (src/importers.ts:238–263), applied to a file whose
frontmatter the line-236 `matter(content)` call parsed successfully:
derive the default id from the relative path, let an explicit frontmatter
id win, mark privacy, trim the body.  Note the source never sets a default
for `alwaysApply`.  The parse step itself — plain gray-matter with the
standard YAML engine, which can throw — is modelled separately
(`fmParsesPlain` / `walkFE` below); this function is the successful
branch. -/
def importMdFile (relPath fullPath : Str) (fc : FileContent) : RuleBlock :=
  let defaultId := decodeRelPath relPath
  -- `{ id: data.id || defaultId, ...data }`: the spread puts `data.id` back,
  -- so an explicit id wins whenever the key is present at all
  let theId := match fc.fm.id with
    | some s => s
    | none => defaultId
  let priv :=
    if fc.fm.priv = some true then some true
    else if fc.fm.priv = none ∧ isPrivateRule fullPath then some true
    else fc.fm.priv
  { metadata :=
      { id := theId
        alwaysApply := fc.fm.alwaysApply
        scope := fc.fm.scope
        triggers := fc.fm.triggers
        manual := fc.fm.manual
        priority := fc.fm.priority
        description := fc.fm.description
        globs := fc.fm.globs
        priv := priv
        extra := fc.fm.extra }
    content := jsTrim fc.body }

/-! ## Frontmatter written by the exporters (src/exporters.ts:188–208 for
`exportToAgent`, identically 239–257 for `exportToCursor`) -/

/-- The frontmatter object built by `exportToAgent`: the allow-listed keys when
present and non-null, then the remaining keys except `id` and except
`private: false`. -/
def exportFrontmatter (m : RuleMetadata) : Frontmatter :=
  { id := none  -- `id` is excluded from the frontmatter; it lives in the path
    description := m.description
    alwaysApply := m.alwaysApply
    globs := m.globs
    manual := m.manual
    scope := m.scope
    priority := m.priority
    triggers := m.triggers
    priv := match m.priv with
      | some false => none  -- `private: false` is elided
      | x => x
    extra := m.extra }

/-! ## Filesystem model

A directory tree of named entries.  `mkdirSync`/`writeFileSync` become
`insertNode`; the recursive `findMarkdownFiles` walk of `importAgent`
becomes the fuel-indexed `walkF` (fuel is a totality device only — every
use supplies at least the `sizeOf` of the tree, which bounds the recursion
depth of the source). -/

mutual
/-- A filesystem node: a file with content or a directory of named entries. -/
inductive FSNode where
  | file (c : FileContent)
  | dir (entries : FSEntries)
/-- A directory listing: a sequence of named nodes. -/
inductive FSEntries where
  | nil
  | cons (name : Str) (node : FSNode) (rest : FSEntries)
end

mutual
/-- Size of a node (used as recursion fuel for the directory walk). -/
def sizeN : FSNode → Nat
  | .file _ => 1
  | .dir es => 1 + sizeE es
/-- Size of a directory listing. -/
def sizeE : FSEntries → Nat
  | .nil => 1
  | .cons _ t rest => 1 + sizeN t + sizeE rest
end

/-- Code-point lexicographic order on names, the model of
`a.name.localeCompare(b.name) < 0`. -/
def strLtB : Str → Str → Bool
  | [], [] => false
  | [], _ :: _ => true
  | _ :: _, [] => false
  | a :: as, b :: bs => if a < b then true else if b < a then false else strLtB as bs

/-- Stable insertion into a name-sorted entry list. -/
def insE (n : Str) (t : FSNode) : FSEntries → FSEntries
  | .nil => .cons n t .nil
  | .cons m u rest =>
    if strLtB n m then .cons n t (.cons m u rest) else .cons m u (insE n t rest)

/-- The model of `entries.sort((a, b) => a.name.localeCompare(b.name))`
(src/importers.ts:225): a stable sort by name. -/
def sortE : FSEntries → FSEntries
  | .nil => .nil
  | .cons n t rest => insE n t (sortE rest)

/-- Look up a directory entry by name. -/
def findE (n : Str) : FSEntries → Option FSNode
  | .nil => none
  | .cons m t rest => if m = n then some t else findE n rest

/-- Replace the entry named `n` (or append a new one). -/
def setE (n : Str) (v : FSNode) : FSEntries → FSEntries
  | .nil => .cons n v .nil
  | .cons m t rest => if m = n then .cons m v rest else .cons m t (setE n v rest)

/-- Write a file at the given segment path, creating directories as needed
(`mkdirSync(..., { recursive: true })` followed by `writeFileSync`).
Writing into a file node or with an empty path leaves the tree unchanged
(the source would throw there; the theorems below only reach conflict-free
paths). -/
def insertNode : FSNode → List Str → FileContent → FSNode
  | t, [], _ => t
  | .file b, _ :: _, _ => .file b
  | .dir es, [n], c => .dir (setE n (.file c) es)
  | .dir es, n :: m :: rest, c =>
      .dir (setE n (insertNode ((findE n es).getD (.dir .nil)) (m :: rest) c) es)

/-- `relativePath ? join(relativePath, entry.name) : entry.name`. -/
def relJoin (rel n : Str) : Str := if rel = [] then n else rel ++ '/' :: n

/-- `join(dir, entry.name)` for a nonempty base directory path. -/
def childPath (base n : Str) : Str := base ++ '/' :: n

/-- Fuel-indexed model of the entry loop of `findMarkdownFiles`
(src/importers.ts:221–266): entries are processed in sorted order; a
directory is recursed into (sorting its entries), a file is imported when
its name ends in `.md`.  (The fuel is a totality device; `sizeE` bounds the
recursion depth, so every use below is equivalent to the source's unbounded
recursion.) -/
def walkF : Nat → FSEntries → Str → Str → List RuleBlock
  | 0, _, _, _ => []
  | _ + 1, .nil, _, _ => []
  | f + 1, .cons n (.file c) rest, rel, full =>
      (if endsWithMd n then [importMdFile (relJoin rel n) (childPath full n) c] else []) ++
        walkF f rest rel full
  | f + 1, .cons n (.dir es) rest, rel, full =>
      walkF f (sortE es) (relJoin rel n) (childPath full n) ++ walkF f rest rel full

/-- The importer's root directory path.  `importAgent` receives
`join(repoPath, '.agent')`; the model takes the repository root as path
origin, so the absolute path of a file is `.agent/<relative path>`.  (This
encodes the standing assumption that the repository root itself contains no
`.local.` / `private` privacy markers.) -/
def agentRootStr : Str := ['.', 'a', 'g', 'e', 'n', 't']

/-- `importAgent` (src/importers.ts:217–275) on a modelled `.agent` tree.
(`readdirSync` on a file would throw; that case returns `[]` here.) -/
def importAgentModel : FSNode → List RuleBlock
  | .file _ => []
  | .dir es => walkF (sizeE es + 1) (sortE es) [] agentRootStr

mutual
/-- All files of a node with their segment paths. -/
def filesOfN : FSNode → List (List Str × FileContent)
  | .file c => [([], c)]
  | .dir es => filesOfE es
/-- All files below a directory listing with their segment paths. -/
def filesOfE : FSEntries → List (List Str × FileContent)
  | .nil => []
  | .cons n t rest =>
      (filesOfN t).map (fun pc => (n :: pc.1, pc.2)) ++ filesOfE rest
end

mutual
/-- Name discipline of a tree built by the exporter: file entries are named
`*.md`, directory entries are not. -/
def nodeDiscN : FSNode → Bool
  | .file _ => true
  | .dir es => nodeDiscE es
/-- Name discipline of a directory listing. -/
def nodeDiscE : FSEntries → Bool
  | .nil => true
  | .cons n t rest =>
      (match t with
       | .file _ => endsWithMd n
       | .dir _ => !endsWithMd n) &&
      nodeDiscN t && nodeDiscE rest
end

/-! ## TreeExporter (src/exporters.ts:157–214) -/

/-- The file content written for one rule: its frontmatter (via
`matter.stringify`) and its body. -/
def exportContent (r : RuleBlock) : FileContent :=
  ⟨exportFrontmatter r.metadata, r.content⟩

/-- The sequence of `(path, content)` writes performed by the
`rules.forEach` loop of `exportToAgent`, threading `topIndex` (which starts
at 1 and is incremented only in the private single-segment branch). -/
def exportWritesFrom : List RuleBlock → Nat → List (List Str × FileContent)
  | [], _ => []
  | r :: rs, idx =>
    if r.metadata.id ≠ [] ∧ '/' ∈ r.metadata.id then
      -- nested branch: used for every id containing `/`, private or not
      (exportPath r.metadata.id (r.metadata.priv = some true) idx, exportContent r) ::
        exportWritesFrom rs idx
    else if r.metadata.priv = some true then
      (exportPath r.metadata.id true idx, exportContent r) :: exportWritesFrom rs (idx + 1)
    else
      (exportPath r.metadata.id false idx, exportContent r) :: exportWritesFrom rs idx

/-- All writes of `exportToAgent` for a rule list. -/
def exportWrites (rules : List RuleBlock) : List (List Str × FileContent) :=
  exportWritesFrom rules 1

/-- `exportToAgent` as a tree builder: perform the writes in order on an
empty `.agent` directory. -/
def exportToAgentModel (rules : List RuleBlock) : FSNode :=
  (exportWrites rules).foldl (fun t pc => insertNode t pc.1 pc.2) (.dir .nil)

/-- `exportToAgent` with its (never consulted) options parameter. -/
def exportToAgentModelO (rules : List RuleBlock) (_opts : ExportOptions) : FSNode :=
  exportToAgentModel rules

/-! ## Flat single-file importers (src/importers.ts:190–215, 356–567)

Each flat importer synthesizes one rule from the whole file; only the rule
construction is modelled (file reading is the identity on the given
content). -/

/-- The single rule of `importCopilot` (src/importers.ts:190–215). -/
def importCopilotRule (filePath content : Str) : RuleBlock :=
  { metadata :=
      { id := "copilot-instructions".data
        alwaysApply := some true
        description := some "GitHub Copilot custom instructions".data
        priv := if isPrivateRule filePath then some true else none }
    content := jsTrim content }

/-- The single rule of the single-file branch of `importCline`
(src/importers.ts:405–423). -/
def importClineSingleRule (rulesPath content : Str) : RuleBlock :=
  { metadata :=
      { id := "cline-rules".data
        alwaysApply := some true
        description := some "Cline project rules".data
        priv := if isPrivateRule rulesPath then some true else none }
    content := jsTrim content }

/-- The single rule of `importWindsurf` (src/importers.ts:433–458). -/
def importWindsurfRule (filePath content : Str) : RuleBlock :=
  { metadata :=
      { id := "windsurf-rules".data
        alwaysApply := some true
        description := some "Windsurf AI rules".data
        priv := if isPrivateRule filePath then some true else none }
    content := jsTrim content }

/-- The single rule of `importZed` (src/importers.ts:460–485). -/
def importZedRule (filePath content : Str) : RuleBlock :=
  { metadata :=
      { id := "zed-rules".data
        alwaysApply := some true
        description := some "Zed editor rules".data
        priv := if isPrivateRule filePath then some true else none }
    content := jsTrim content }

/-- JS `basename(p)` for `/`-separated paths. -/
def baseName (p : Str) : Str := (splitSlash p).getLastD []

/-- The single rule of `importCodex` (src/importers.ts:487–513). -/
def importCodexRule (filePath content : Str) : RuleBlock :=
  let isCodex := baseName filePath = "AGENTS.md".data ∨
    baseName filePath = "AGENTS.local.md".data
  { metadata :=
      { id := if isCodex then "codex-agents".data else "claude-rules".data
        alwaysApply := some true
        description := some (if isCodex then "OpenAI Codex agent instructions".data
          else "Claude AI instructions".data)
        priv := if isPrivateRule filePath then some true else none }
    content := jsTrim content }

/-- The single rule of `importAider` (src/importers.ts:515–540). -/
def importAiderRule (filePath content : Str) : RuleBlock :=
  { metadata :=
      { id := "aider-conventions".data
        alwaysApply := some true
        description := some "Aider CLI conventions".data
        priv := if isPrivateRule filePath then some true else none }
    content := jsTrim content }

/-- The single rule of `importClaudeCode` (src/importers.ts:542–567). -/
def importClaudeCodeRule (filePath content : Str) : RuleBlock :=
  { metadata :=
      { id := "claude-code-instructions".data
        alwaysApply := some true
        description := some "Claude Code context and instructions".data
        priv := if isPrivateRule filePath then some true else none }
    content := jsTrim content }

/-! ## Claim C2 -/

/-- **C2**: for every well-formed id — segments nonempty, no `.local`
suffix, no segment literally `private`, no numeric ordering mark, no
backslash — single- or multi-segment, decoding the relative path produced
by encoding it with `private = false` returns the original id. -/
theorem c2_decode_encode_id (id : Str) (ordinal : Nat) (h : wfId id) :
    decodeRelPath (encodeRelPath id false ordinal) = id :=
  decode_encode_of_wf h ordinal

/-- Witness for C2 at the multi-segment id `docs/api/v2/overview` and the
single-segment id `overview`. -/
theorem c2_decode_encode_id_witness :
    (wfId "docs/api/v2/overview".data ∧
      decodeRelPath (encodeRelPath "docs/api/v2/overview".data false 7) =
        "docs/api/v2/overview".data) ∧
    (wfId "overview".data ∧
      decodeRelPath (encodeRelPath "overview".data false 1) = "overview".data) :=
  ⟨⟨by decide, c2_decode_encode_id _ 7 (by decide)⟩,
   ⟨by decide, c2_decode_encode_id _ 1 (by decide)⟩⟩

/-! ## Claim C3 -/

/-- **C3**: for every file imported by the hierarchical importer, an
explicit `private: false` in frontmatter yields `metadata.private = false`
regardless of the path; with no explicit `private` key the rule is marked
private (`private = true`) exactly when the path classifier fires, and is
left unmarked otherwise. -/
theorem c3_privacy_precedence (relPath fullPath : Str) (fc : FileContent) :
    (fc.fm.priv = some false →
      (importMdFile relPath fullPath fc).metadata.priv = some false) ∧
    (fc.fm.priv = none →
      (importMdFile relPath fullPath fc).metadata.priv =
        (if isPrivateRule fullPath then some true else none)) := by
  constructor
  · intro h
    simp [importMdFile, h]
  · intro h
    by_cases hp : isPrivateRule fullPath <;> simp [importMdFile, h, hp]

/-- Witness for C3: a file at `.agent/override.local.md` (privately
classified path) with explicit `private: false` imports as public, and a
file at the same path with no `private` key imports as private. -/
theorem c3_privacy_precedence_witness :
    (importMdFile "override.local.md".data ".agent/override.local.md".data
      ⟨{ priv := some false }, "x".data⟩).metadata.priv = some false ∧
    (importMdFile "override.local.md".data ".agent/override.local.md".data
      ⟨{}, "x".data⟩).metadata.priv = some true := by
  constructor
  · exact (c3_privacy_precedence "override.local.md".data
      ".agent/override.local.md".data ⟨{ priv := some false }, "x".data⟩).1 rfl
  · rw [(c3_privacy_precedence "override.local.md".data
      ".agent/override.local.md".data ⟨{}, "x".data⟩).2 rfl]
    decide

/-! ## Claim C4

`findMarkdownFiles` sorts each directory listing with
`entries.sort((a, b) => a.name.localeCompare(b.name))` only
(src/importers.ts:225): directories and files are interleaved purely
alphabetically, although the comment directly above — and the repository's
own documentation copy of the importer in `.agent/guidelines.md`, which
sorts with an `isDirectory` tiebreak first — promise subdirectories before
files.  The traversal IS deterministic (independent of `readdirSync`
enumeration order), but the dirs-before-files half of the claim is false
in the code. -/

/-- A directory holding a file `a.md` and a subdirectory `b` containing
`c.md` — the failing input for the dirs-before-files ordering claim. -/
def c4Tree : FSNode :=
  .dir (.cons "a.md".data (.file ⟨{}, "A".data⟩)
    (.cons "b".data (.dir (.cons "c.md".data (.file ⟨{}, "C".data⟩) .nil)) .nil))

/-- The same directory with the two top-level entries enumerated in the
opposite order (a different OS `readdir` order). -/
def c4TreeRev : FSNode :=
  .dir (.cons "b".data (.dir (.cons "c.md".data (.file ⟨{}, "C".data⟩) .nil))
    (.cons "a.md".data (.file ⟨{}, "A".data⟩) .nil))

/-- **C4** (code behaviour at the failing input): the hierarchical importer
emits the top-level file's rule `a` BEFORE the subdirectory rule `b/c`
(pure alphabetical interleaving, contradicting the claimed
directories-before-files order), yet the output is identical for both
enumeration orders of the underlying directory (the deterministic half of
the claim holds). -/
theorem c4_traversal_order_code_behaviour :
    (importAgentModel c4Tree).map (fun r => r.metadata.id) =
      ["a".data, "b/c".data] ∧
    importAgentModel c4Tree = importAgentModel c4TreeRev := by
  constructor
  · decide
  · decide

/-! ## Claim C5

`importAgent` in src/importers.ts:250–263 builds
`metadata = { id: ..., ...data }` and never sets a default for
`alwaysApply`: a file whose frontmatter lacks the key imports with
`alwaysApply` absent (undefined), not `false`.  The spec and the
repository's own documentation copy of the importer
(`.agent/guidelines.md`, "Set default alwaysApply to false if not
specified") require the `false` default.  The flat single-file importers do
set `alwaysApply: true` as claimed. -/

/-- A `.agent` directory holding a single file `x.md` whose frontmatter has
no `alwaysApply` key — the failing input for the hierarchical default. -/
def c5Tree : FSNode :=
  .dir (.cons "x.md".data (.file ⟨{}, "Hello".data⟩) .nil)

/-- **C5** (code behaviour at the failing input): the hierarchical importer
leaves `alwaysApply` unset (`none`, i.e. undefined) instead of the claimed
default `false`, while every flat single-file importer (Copilot, Cline,
Windsurf, Zed, Codex, Aider, Claude) sets `alwaysApply = true` for its
synthesized rule. -/
theorem c5_alwaysApply_defaults_code_behaviour :
    (importAgentModel c5Tree).map (fun r => r.metadata.alwaysApply) = [none] ∧
    ((importCopilotRule "f.md".data "x".data).metadata.alwaysApply = some true ∧
     (importClineSingleRule "f".data "x".data).metadata.alwaysApply = some true ∧
     (importWindsurfRule "f".data "x".data).metadata.alwaysApply = some true ∧
     (importZedRule "f".data "x".data).metadata.alwaysApply = some true ∧
     (importCodexRule "AGENTS.md".data "x".data).metadata.alwaysApply = some true ∧
     (importAiderRule "f.md".data "x".data).metadata.alwaysApply = some true ∧
     (importClaudeCodeRule "f.md".data "x".data).metadata.alwaysApply = some true) := by
  exact ⟨by decide, by decide, by decide, by decide, by decide, by decide, by decide,
    by decide⟩

/-! ## ConditionalSectionSynthesizer (src/exporters.ts:11–96)

`generateConditionalRulesSection` partitions the `alwaysApply === false`
rules.  The effective index entries are: the scoped rules (emitted first),
the described top-level rules, and — inside the per-folder sections — the
`/`-id rules not already emitted in the first two groups (the
`unhandledRules` filter at src/exporters.ts:76–78). -/

/-- JS truthiness of `rule.metadata.scope` (a string is truthy iff nonempty;
an array is always truthy, even empty). -/
def scopeTruthy (r : RuleBlock) : Bool :=
  match r.metadata.scope with
  | some (.str s) => decide (s ≠ [])
  | some (.list _) => true
  | none => false

/-- JS truthiness of `rule.metadata.description`. -/
def descTruthy (r : RuleBlock) : Bool :=
  match r.metadata.description with
  | some s => decide (s ≠ [])
  | none => false

/-- `rule.metadata.id && rule.metadata.id.includes('/')`. -/
def idHasSlash (r : RuleBlock) : Bool :=
  decide (r.metadata.id ≠ [] ∧ '/' ∈ r.metadata.id)

/-- `rules.filter(r => r.metadata.alwaysApply === false)`
(src/exporters.ts:16). -/
def conditionalRules (rules : List RuleBlock) : List RuleBlock :=
  rules.filter (fun r => decide (r.metadata.alwaysApply = some false))

/-- `rulesWithScope` (src/exporters.ts:38–39). -/
def rulesWithScope (rules : List RuleBlock) : List RuleBlock :=
  (conditionalRules rules).filter scopeTruthy

/-- `rulesWithDescription` (src/exporters.ts:40–43). -/
def rulesWithDescription (rules : List RuleBlock) : List RuleBlock :=
  (conditionalRules rules).filter
    (fun r => descTruthy r && !scopeTruthy r && !idHasSlash r)

/-- The rules listed in the per-folder sections: members of `rulesByFolder`
(id contains `/`) that survive the `unhandledRules` filter
(src/exporters.ts:27–35, 74–93). -/
def rulesInFolderSections (rules : List RuleBlock) : List RuleBlock :=
  ((conditionalRules rules).filter idHasSlash).filter
    (fun r => !(rulesWithScope rules).contains r &&
      !(rulesWithDescription rules).contains r)

/-! ## Claim C6 -/

/-- Counterexample to **C6** as stated: the conditional rule
`{ id: "misc", alwaysApply: false }` (no scope, no description, single-
segment id) lands in NONE of the three buckets — it is absent from the
generated conditional index altogether, not classified into exactly one. -/
theorem c6_counterexample :
    (⟨{ id := "misc".data, alwaysApply := some false }, "m".data⟩ : RuleBlock) ∈
      conditionalRules [⟨{ id := "misc".data, alwaysApply := some false }, "m".data⟩] ∧
    (⟨{ id := "misc".data, alwaysApply := some false }, "m".data⟩ : RuleBlock) ∉
      rulesWithScope [⟨{ id := "misc".data, alwaysApply := some false }, "m".data⟩] ∧
    (⟨{ id := "misc".data, alwaysApply := some false }, "m".data⟩ : RuleBlock) ∉
      rulesWithDescription
        [⟨{ id := "misc".data, alwaysApply := some false }, "m".data⟩] ∧
    (⟨{ id := "misc".data, alwaysApply := some false }, "m".data⟩ : RuleBlock) ∉
      rulesInFolderSections
        [⟨{ id := "misc".data, alwaysApply := some false }, "m".data⟩] := by
  refine ⟨by decide, by decide, by decide, by decide⟩

/-- **C6 (amended)**: every conditional rule that has a truthy scope, a
truthy description, or a multi-segment id is classified into exactly one of
the three buckets (scoped / described top-level / listed in a folder
section); a conditional rule with none of these is classified into no
bucket at all and is omitted from the generated section. -/
theorem c6_conditional_buckets_partition (rules : List RuleBlock) (r : RuleBlock)
    (hr : r ∈ conditionalRules rules) :
    ((scopeTruthy r || descTruthy r || idHasSlash r) = true →
      ((r ∈ rulesWithScope rules ∧ r ∉ rulesWithDescription rules ∧
          r ∉ rulesInFolderSections rules) ∨
        (r ∉ rulesWithScope rules ∧ r ∈ rulesWithDescription rules ∧
          r ∉ rulesInFolderSections rules) ∨
        (r ∉ rulesWithScope rules ∧ r ∉ rulesWithDescription rules ∧
          r ∈ rulesInFolderSections rules))) ∧
    ((scopeTruthy r || descTruthy r || idHasSlash r) = false →
      (r ∉ rulesWithScope rules ∧ r ∉ rulesWithDescription rules ∧
        r ∉ rulesInFolderSections rules)) := by
  constructor
  · intro h
    by_cases hs : scopeTruthy r = true
    · left
      refine ⟨List.mem_filter.mpr ⟨hr, hs⟩, ?_, ?_⟩
      · intro hmem
        have := (List.mem_filter.mp hmem).2
        simp [hs] at this
      · intro hmem
        have := (List.mem_filter.mp hmem).2
        have hsc : r ∈ rulesWithScope rules := List.mem_filter.mpr ⟨hr, hs⟩
        rw [Bool.and_eq_true, Bool.not_eq_true', ← Bool.not_eq_true] at this
        exact this.1 (by rwa [List.elem_iff])
    · by_cases hl : idHasSlash r = true
      · right; right
        have hnotdesc : r ∉ rulesWithDescription rules := by
          intro hmem
          have := (List.mem_filter.mp hmem).2
          simp [hl] at this
        have hnotsc : r ∉ rulesWithScope rules := by
          intro hmem
          exact hs (List.mem_filter.mp hmem).2
        refine ⟨hnotsc, hnotdesc, ?_⟩
        refine List.mem_filter.mpr ⟨List.mem_filter.mpr ⟨hr, hl⟩, ?_⟩
        rw [Bool.and_eq_true, Bool.not_eq_true', Bool.not_eq_true']
        constructor
        · rw [← Bool.not_eq_true, List.elem_iff]
          exact hnotsc
        · rw [← Bool.not_eq_true, List.elem_iff]
          exact hnotdesc
      · right; left
        have hd : descTruthy r = true := by
          simp only [Bool.or_eq_true] at h
          rcases h with (h | h) | h
          · exact absurd h hs
          · exact h
          · exact absurd h hl
        have hdesc : r ∈ rulesWithDescription rules := by
          refine List.mem_filter.mpr ⟨hr, ?_⟩
          simp [hd, hs, hl]
        refine ⟨fun hmem => hs (List.mem_filter.mp hmem).2, hdesc, ?_⟩
        intro hmem
        have := (List.mem_filter.mp (List.mem_filter.mp hmem).1).2
        exact hl this
  · intro h
    simp only [Bool.or_eq_false_iff] at h
    obtain ⟨⟨hs, hd⟩, hl⟩ := h
    refine ⟨?_, ?_, ?_⟩
    · intro hmem
      have hmem2 := (List.mem_filter.mp hmem).2
      rw [hmem2] at hs
      exact Bool.noConfusion hs
    · intro hmem
      have := (List.mem_filter.mp hmem).2
      simp [hd] at this
    · intro hmem
      have := (List.mem_filter.mp (List.mem_filter.mp hmem).1).2
      rw [this] at hl
      simp at hl

/-- Witness for C6 (amended), applying it to a scoped rule, a described
rule and a foldered rule in a three-rule list. -/
theorem c6_conditional_buckets_partition_witness :
    let r1 : RuleBlock :=
      ⟨{ id := "s".data, alwaysApply := some false,
         scope := some (.str "src/**".data) }, "a".data⟩
    let r2 : RuleBlock :=
      ⟨{ id := "d".data, alwaysApply := some false,
         description := some "docs".data }, "b".data⟩
    let r3 : RuleBlock :=
      ⟨{ id := "w/f".data, alwaysApply := some false }, "c".data⟩
    (r1 ∈ rulesWithScope [r1, r2, r3] ∧ r1 ∉ rulesWithDescription [r1, r2, r3] ∧
        r1 ∉ rulesInFolderSections [r1, r2, r3]) ∧
    (r2 ∉ rulesWithScope [r1, r2, r3] ∧ r2 ∈ rulesWithDescription [r1, r2, r3] ∧
        r2 ∉ rulesInFolderSections [r1, r2, r3]) ∧
    (r3 ∉ rulesWithScope [r1, r2, r3] ∧ r3 ∉ rulesWithDescription [r1, r2, r3] ∧
        r3 ∈ rulesInFolderSections [r1, r2, r3]) := by
  intro r1 r2 r3
  refine ⟨?_, ?_, ?_⟩
  · have h := (c6_conditional_buckets_partition [r1, r2, r3] r1 (by decide)).1 (by decide)
    rcases h with h | h | h
    · exact h
    · exact absurd h.2.1 (by decide)
    · exact absurd h.2.2 (by decide)
  · have h := (c6_conditional_buckets_partition [r1, r2, r3] r2 (by decide)).1 (by decide)
    rcases h with h | h | h
    · exact absurd h.1 (by decide)
    · exact h
    · exact absurd h.2.2 (by decide)
  · have h := (c6_conditional_buckets_partition [r1, r2, r3] r3 (by decide)).1 (by decide)
    rcases h with h | h | h
    · exact absurd h.1 (by decide)
    · exact absurd h.2.1 (by decide)
    · exact h

/-! ## GlobYamlCodec (src/yaml-parser.ts)

`createSafeYamlParser` wraps a standard YAML serializer/parser (`js-yaml`)
with regex pre/post-processing.  The regexes of the source are embedded
faithfully as linewise transforms (all of them are `^...$` with the `m`
flag).  The surrounding `yaml.dump` / `yaml.load` are not repository code;
`miniDump`/`miniLoad` model the fragment of YAML they handle for
frontmatter of string and string-list values, including the properties the
codec exists to work around: `dump` single-quotes scalars beginning with
`*`, and `load` rejects an unquoted scalar beginning with `*` (undefined
alias). -/

/-- A frontmatter YAML value: a string scalar or a list of strings. -/
inductive YVal where
  | str (s : Str)
  | list (xs : List Str)
deriving DecidableEq, Repr

/-- Inline whitespace (what `\s` can match inside one line). -/
def isSp (c : Char) : Bool := c = ' ' || c = '\t'

/-- A word character (`\w`). -/
def isWordChar (c : Char) : Bool :=
  ('a' ≤ c && c ≤ 'z') || ('A' ≤ c && c ≤ 'Z') || ('0' ≤ c && c ≤ '9') || c = '_'

/-- Does a scalar need quoting when dumped by js-yaml?  (Fragment: scalars
beginning with `*` would be aliases and are single-quoted.) -/
def dumpNeedsQuote (s : Str) : Bool := s.head? = some '*'

/-- Modelled from the spec: the `standard YAML serializer` (`yaml.dump`)
of GlobYamlCodec, on the fragment of one-level mappings of strings and
string lists.  Scalars beginning with `*` are single-quoted; block
sequences are indented two spaces. -/
def miniDumpVal (v : Str) : Str :=
  if dumpNeedsQuote v then '\'' :: v ++ ['\''] else v

def miniDump (data : List (Str × YVal)) : Str :=
  (data.map (fun kv =>
    match kv.2 with
    | .str v => kv.1 ++ ':' :: ' ' :: miniDumpVal v ++ ['\n']
    | .list xs =>
        kv.1 ++ ':' :: '\n' ::
          (xs.map (fun x => ' ' :: ' ' :: '-' :: ' ' :: miniDumpVal x ++ ['\n'])).flatten)).flatten

/-- Split a prefix `\s*globs:\s*` (or any fixed key) from a line, returning
the matched prefix and the remainder. -/
def matchKeyPre (key : Str) (line : Str) : Option (Str × Str) :=
  let ws1 := line.takeWhile isSp
  let rest1 := line.drop ws1.length
  if isPre (key ++ [':']) rest1 then
    let rest2 := rest1.drop (key.length + 1)
    let ws2 := rest2.takeWhile isSp
    some (ws1 ++ key ++ ':' :: ws2, rest2.drop ws2.length)
  else none

/-- Split a prefix `\s*-\s*` from a line (`wsAfter` demands `\s+` when
`true`, as in the parse-side regex). -/
def matchDashPre (wsAfter : Bool) (line : Str) : Option (Str × Str) :=
  let ws1 := line.takeWhile isSp
  let rest1 := line.drop ws1.length
  match rest1 with
  | '-' :: rest2 =>
    let ws2 := rest2.takeWhile isSp
    if wsAfter ∧ ws2 = [] then none
    else some (ws1 ++ '-' :: ws2, rest2.drop ws2.length)
  | _ => none

/-- Match `(['"])<body>\1` against the rest of a line, where the body may
contain no quote characters and must satisfy `pred`; returns the body. -/
def unquoteBody (pred : Str → Bool) (rest : Str) : Option Str :=
  match rest with
  | q :: tail =>
    if (q = '\'' ∨ q = '"') ∧ tail.getLast? = some q ∧ tail ≠ [] then
      let body := tail.dropLast
      if pred body ∧ ¬ body.any (fun c => c = '\'' ∨ c = '"') then some body else none
    else none
  | [] => none

/-- One line of the first stringify replace
(`^(\s*globs:\s*)(['"])(\*[^'"]*)\2$`). -/
def lineUnquoteGlobsStar (line : Str) : Str :=
  match matchKeyPre "globs".data line with
  | some (pre, rest) =>
    match unquoteBody (fun b => b.head? = some '*') rest with
    | some body => pre ++ body
    | none => line
  | none => line

/-- One line of the second stringify replace: the body pattern
`[^'"]*\*[^'"]*(?:,[^'"]*\*[^'"]*)*` accepts (with backtracking) exactly
the quote-free bodies containing at least one `*`. -/
def lineUnquoteGlobsComma (line : Str) : Str :=
  match matchKeyPre "globs".data line with
  | some (pre, rest) =>
    match unquoteBody (fun b => '*' ∈ b) rest with
    | some body => pre ++ body
    | none => line
  | none => line

/-- One line of the third stringify replace
(`^(\s*-\s*)(['"])(\*[^'"]*)\2$`). -/
def lineUnquoteDashStar (line : Str) : Str :=
  match matchDashPre false line with
  | some (pre, rest) =>
    match unquoteBody (fun b => b.head? = some '*') rest with
    | some body => pre ++ body
    | none => line
  | none => line

/-- Body pattern of the fourth and fifth replaces: `\*\*?\/[^'"]*`. -/
def starSlashBody (b : Str) : Bool :=
  isPre ['*', '/'] b || isPre ['*', '*', '/'] b

/-- One line of the fourth stringify replace
(`^(\s*globs:\s*)(['"])(\*\*?\/[^'"]*)\2$`). -/
def lineUnquoteGlobsSlash (line : Str) : Str :=
  match matchKeyPre "globs".data line with
  | some (pre, rest) =>
    match unquoteBody starSlashBody rest with
    | some body => pre ++ body
    | none => line
  | none => line

/-- One line of the fifth stringify replace
(`^(\s*-\s*)(['"])(\*\*?\/[^'"]*)\2$`). -/
def lineUnquoteDashSlash (line : Str) : Str :=
  match matchDashPre false line with
  | some (pre, rest) =>
    match unquoteBody starSlashBody rest with
    | some body => pre ++ body
    | none => line
  | none => line

/-- Apply a per-line transform to every line (`^...$` with the `m` flag). -/
def mapLines (f : Str → Str) (s : Str) : Str :=
  joinChar '\n' ((splitOnChar '\n' s).map f)

/-- The five chained post-processing replaces of `stringify`
(src/yaml-parser.ts:51–60), in source order. -/
def postUnquoteGlobs (s : Str) : Str :=
  mapLines lineUnquoteDashSlash
    (mapLines lineUnquoteGlobsSlash
      (mapLines lineUnquoteDashStar
        (mapLines lineUnquoteGlobsComma
          (mapLines lineUnquoteGlobsStar s))))

/-- The value part of the two parse-side pre-processing regexes: the rest
of a line after the prefix, matched as `(\*[^\n\r"']*?)(\s*$)`.  The lazy
body together with the trailing `\s*$` splits the rest into its
right-trimmed part (which must start with `*` and contain no quotes) and
trailing whitespace. -/
def quoteValue (rest : Str) : Option (Str × Str) :=
  let trailing := (rest.reverse.takeWhile isSp).reverse
  let value := rest.take (rest.length - trailing.length)
  if value.head? = some '*' ∧ ¬ value.any (fun c => c = '\'' ∨ c = '"') then
    some (value, trailing)
  else none

/-- One line of the first parse pre-processing replace
(`^(\s*\w+:\s*)(\*[^\n\r"']*?)(\s*(?:\r?\n|$))`): quote an unquoted
key-line value beginning with `*`. -/
def lineQuoteKeyStar (line : Str) : Str :=
  let ws1 := line.takeWhile isSp
  let rest1 := line.drop ws1.length
  let key := rest1.takeWhile isWordChar
  match rest1.drop key.length with
  | ':' :: rest2 =>
    if key = [] then line
    else
      let ws2 := rest2.takeWhile isSp
      let rest3 := rest2.drop ws2.length
      match quoteValue rest3 with
      | some (value, trailing) =>
          ws1 ++ key ++ ':' :: ws2 ++ '"' :: value ++ '"' :: trailing
      | none => line
  | _ => line

/-- One line of the second parse pre-processing replace
(`^(\s*-\s+)(\*[^\n\r"']*?)(\s*(?:\r?\n|$))`). -/
def lineQuoteDashStar (line : Str) : Str :=
  match matchDashPre true line with
  | some (pre, rest) =>
    match quoteValue rest with
    | some (value, trailing) => pre ++ '"' :: value ++ '"' :: trailing
    | none => line
  | none => line

/-- The parse pre-processing of src/yaml-parser.ts:14–37: both linewise
quoting passes in source order. -/
def preQuoteGlobs (s : Str) : Str :=
  mapLines lineQuoteDashStar (mapLines lineQuoteKeyStar s)

/-- Modelled from the spec: the scalar grammar of the `standard YAML
parser` (`yaml.load`) of GlobYamlCodec — quoted scalars are unquoted; an
unquoted scalar beginning with `*` is an alias and fails to load. -/
def miniLoadScalar (v : Str) : Option Str :=
  match v with
  | '\'' :: tail => if tail.getLast? = some '\'' ∧ tail ≠ [] then some tail.dropLast else none
  | '"' :: tail => if tail.getLast? = some '"' ∧ tail ≠ [] then some tail.dropLast else none
  | '*' :: _ => none
  | v => some v

/-- Collect leading block-sequence items (`  - x` lines). -/
def miniLoadItems : List Str → Option (List Str × List Str)
  | [] => some ([], [])
  | line :: rest =>
    match matchDashPre true line with
    | some (_, v) =>
      match miniLoadScalar v, miniLoadItems rest with
      | some x, some (xs, rem) => some (x :: xs, rem)
      | _, _ => none
    | none =>
      if (line.takeWhile isSp) ≠ [] then none  -- indented non-item line
      else some ([], line :: rest)

/-- Modelled from the spec: the `standard YAML parser` (`yaml.load`) of
GlobYamlCodec, on one-level mappings of strings and string lists. -/
def miniLoadLines : Nat → List Str → Option (List (Str × YVal))
  | 0, _ => none
  | _ + 1, [] => some []
  | f + 1, [] :: rest => miniLoadLines f rest  -- blank line
  | f + 1, line :: rest =>
    let key := line.takeWhile (fun c => c ≠ ':')
    match line.drop key.length with
    | ':' :: after =>
      if key = [] ∨ (line.takeWhile isSp) ≠ [] then none
      else if after.dropWhile isSp = [] then
        -- `key:` introducing a block sequence
        match miniLoadItems rest with
        | some (xs, rem) =>
          match miniLoadLines f rem with
          | some kvs => some ((key, .list xs) :: kvs)
          | none => none
        | none => none
      else
        match miniLoadScalar ((after.dropWhile isSp).reverse.dropWhile isSp).reverse with
        | some v =>
          match miniLoadLines f rest with
          | some kvs => some ((key, .str v) :: kvs)
          | none => none
        | none => none
    | _ => none

def miniLoad (s : Str) : Option (List (Str × YVal)) :=
  miniLoadLines (s.length + 2) (splitOnChar '\n' s)

/-- `createSafeYamlParser().stringify` (src/yaml-parser.ts:46–61): dump,
then post-process the glob quotes away. -/
def safeStringify (data : List (Str × YVal)) : Str :=
  postUnquoteGlobs (miniDump data)

/-- `createSafeYamlParser().parse` (src/yaml-parser.ts:11–45): pre-quote
the glob patterns, load; on failure fall back to loading the original. -/
def safeParse (s : Str) : Option (List (Str × YVal)) :=
  match miniLoad (preQuoteGlobs s) with
  | some v => some v
  | none => miniLoad s

/-! ## Claim C7 -/

/-- **C7**: for frontmatter with `globs` equal to the glob string
`**/*.\x7bts,tsx\x7d` — and analogously for the one-element glob list —
serializing then parsing returns the original value, the serialized form
carries the glob unquoted, and re-serializing the parsed value reproduces
the serialized bytes exactly. -/
theorem c7_glob_roundtrip :
    (safeParse (safeStringify [("globs".data, .str "**/*.\x7bts,tsx\x7d".data)]) =
        some [("globs".data, .str "**/*.\x7bts,tsx\x7d".data)] ∧
      safeStringify [("globs".data, .str "**/*.\x7bts,tsx\x7d".data)] =
        "globs: **/*.\x7bts,tsx\x7d\n".data ∧
      (safeParse (safeStringify [("globs".data, .str "**/*.\x7bts,tsx\x7d".data)])).map
          safeStringify =
        some (safeStringify [("globs".data, .str "**/*.\x7bts,tsx\x7d".data)])) ∧
    (safeParse (safeStringify [("globs".data, .list ["**/*.\x7bts,tsx\x7d".data])]) =
        some [("globs".data, .list ["**/*.\x7bts,tsx\x7d".data])] ∧
      safeStringify [("globs".data, .list ["**/*.\x7bts,tsx\x7d".data])] =
        "globs:\n  - **/*.\x7bts,tsx\x7d\n".data ∧
      (safeParse (safeStringify [("globs".data, .list ["**/*.\x7bts,tsx\x7d".data])])).map
          safeStringify =
        some (safeStringify [("globs".data, .list ["**/*.\x7bts,tsx\x7d".data])])) := by
  exact ⟨⟨by decide, by decide, by decide⟩, ⟨by decide, by decide, by decide⟩⟩

/-! ## importAll (src/importers.ts:13–188)

`importAll` probes seventeen known locations in a fixed order; for each
existing one it runs the per-format importer inside `try`/`catch`, pushing
the result onto `results` or a `{file, error}` entry onto `errors`.  The
environment (filesystem plus importer behaviour) is abstracted per
location: `none` models a non-existing path, `some (.ok r)` a successful
import, `some (.error e)` a thrown exception. -/

/-- The environment seen by one `importAll` call: the outcome at each of
the seventeen probed locations, in source order.  (`α` is the import-result
payload.) -/
structure RepoEnv (α : Type) where
  agent : Option (Except Str α) := none
  copilot : Option (Except Str α) := none
  copilotLocal : Option (Except Str α) := none
  cursorRules : Option (Except Str α) := none
  cursorLegacy : Option (Except Str α) := none
  cline : Option (Except Str α) := none
  clineLocal : Option (Except Str α) := none
  windsurf : Option (Except Str α) := none
  windsurfLocal : Option (Except Str α) := none
  zed : Option (Except Str α) := none
  zedLocal : Option (Except Str α) := none
  codex : Option (Except Str α) := none
  codexLocal : Option (Except Str α) := none
  claude : Option (Except Str α) := none
  claudeLocal : Option (Except Str α) := none
  aider : Option (Except Str α) := none
  aiderLocal : Option (Except Str α) := none

/-- `join(repoPath, suffix)`. -/
def pathOf (repo suffix : Str) : Str := repo ++ '/' :: suffix

/-- The seventeen probes of `importAll` with their file paths, in the exact
source order (src/importers.ts:17–185). -/
def importAllChecks {α : Type} (repo : Str) (env : RepoEnv α) :
    List (Str × Option (Except Str α)) :=
  [ (pathOf repo ".agent".data, env.agent),
    (pathOf repo ".github/copilot-instructions.md".data, env.copilot),
    (pathOf repo ".github/copilot-instructions.local.md".data, env.copilotLocal),
    (pathOf repo ".cursor/rules".data, env.cursorRules),
    (pathOf repo ".cursorrules".data, env.cursorLegacy),
    (pathOf repo ".clinerules".data, env.cline),
    (pathOf repo ".clinerules.local".data, env.clineLocal),
    (pathOf repo ".windsurfrules".data, env.windsurf),
    (pathOf repo ".windsurfrules.local".data, env.windsurfLocal),
    (pathOf repo ".rules".data, env.zed),
    (pathOf repo ".rules.local".data, env.zedLocal),
    (pathOf repo "AGENTS.md".data, env.codex),
    (pathOf repo "AGENTS.local.md".data, env.codexLocal),
    (pathOf repo "CLAUDE.md".data, env.claude),
    (pathOf repo "CLAUDE.local.md".data, env.claudeLocal),
    (pathOf repo "CONVENTIONS.md".data, env.aider),
    (pathOf repo "CONVENTIONS.local.md".data, env.aiderLocal) ]

/-- One `importAll` block:
`if (existsSync(p)) try { results.push(...) } catch (e) { errors.push(...) }`. -/
def importAllStep {α : Type} (acc : List α × List (Str × Str))
    (check : Str × Option (Except Str α)) : List α × List (Str × Str) :=
  match check.2 with
  | none => acc
  | some (.ok r) => (acc.1 ++ [r], acc.2)
  | some (.error e) => (acc.1, acc.2 ++ [(check.1, e)])

/-- `importAll`: run every probe in order, collecting results and errors. -/
def importAllModel {α : Type} (repo : Str) (env : RepoEnv α) :
    List α × List (Str × Str) :=
  (importAllChecks repo env).foldl importAllStep ([], [])

/-- The successful outcome of a probe, if any. -/
def checkOk {α : Type} (c : Str × Option (Except Str α)) : Option α :=
  match c.2 with
  | some (.ok r) => some r
  | _ => none

/-- The `{file, error}` entry of a probe, if it failed. -/
def checkErr {α : Type} (c : Str × Option (Except Str α)) : Option (Str × Str) :=
  match c.2 with
  | some (.error e) => some (c.1, e)
  | _ => none

theorem importAll_foldl_characterization {α : Type}
    (checks : List (Str × Option (Except Str α))) (acc : List α × List (Str × Str)) :
    checks.foldl importAllStep acc =
      (acc.1 ++ checks.filterMap checkOk, acc.2 ++ checks.filterMap checkErr) := by
  induction checks generalizing acc with
  | nil => simp
  | cons c cs ih =>
    match hc : c.2 with
    | none =>
      simp [List.foldl_cons, importAllStep, hc, ih, List.filterMap_cons, checkOk, checkErr]
    | some (.ok r) =>
      simp [List.foldl_cons, importAllStep, hc, ih, List.filterMap_cons, checkOk, checkErr]
    | some (.error e) =>
      simp [List.foldl_cons, importAllStep, hc, ih, List.filterMap_cons, checkOk, checkErr]

/-! ## Claim C9 -/

/-- **C9**: `importAll` always returns a pair of lists; its results list is
exactly the successful probes' payloads in probe order and its errors list
is exactly the failing probes' `{file, error}` entries in probe order — so
one importer's thrown exception becomes an errors entry and never removes
or prevents another importer's result. -/
theorem c9_importAll_collects_errors {α : Type} (repo : Str) (env : RepoEnv α) :
    importAllModel repo env =
      ((importAllChecks repo env).filterMap checkOk,
        (importAllChecks repo env).filterMap checkErr) := by
  rw [importAllModel, importAll_foldl_characterization]
  simp

/-! ## Round-trip machinery for claim C1 -/

/-- Induction on a directory listing alone (the node components are treated
as opaque). -/
theorem entries_ind {P : FSEntries → Prop} (h0 : P .nil)
    (h1 : ∀ n t rest, P rest → P (.cons n t rest)) : ∀ es, P es :=
  fun es =>
    @FSEntries.rec (fun _ => True) P (fun _ => trivial) (fun _ _ => trivial) h0
      (fun n t rest _ ih => h1 n t rest ih) es

/-- One entry's contribution to the name discipline. -/
def entryOk (n : Str) (t : FSNode) : Bool :=
  (match t with
   | .file _ => endsWithMd n
   | .dir _ => !endsWithMd n) && nodeDiscN t

theorem nodeDiscE_cons (n : Str) (t : FSNode) (rest : FSEntries) :
    nodeDiscE (.cons n t rest) = (entryOk n t && nodeDiscE rest) := by
  cases t <;> simp [nodeDiscE, entryOk, Bool.and_assoc]

theorem sizeE_pos (es : FSEntries) : 1 ≤ sizeE es := by
  cases es
  case nil => simp [sizeE]
  case cons => simp [sizeE]; omega

theorem sizeN_pos (t : FSNode) : 1 ≤ sizeN t := by
  cases t
  case file => simp [sizeN]
  case dir => simp [sizeN]

theorem sizeE_insE (n : Str) (t : FSNode) (es : FSEntries) :
    sizeE (insE n t es) = 1 + sizeN t + sizeE es := by
  induction es using entries_ind with
  | h0 => simp [insE, sizeE]
  | h1 m u rest ih =>
    by_cases h : strLtB n m = true
    · simp [insE, h, sizeE]
    · simp only [insE, h, Bool.false_eq_true, if_false]
      simp [sizeE, ih]
      omega

theorem sizeE_sortE (es : FSEntries) : sizeE (sortE es) = sizeE es := by
  induction es using entries_ind with
  | h0 => rfl
  | h1 n t rest ih => simp [sortE, sizeE_insE, sizeE, ih]

theorem filesOfE_insE (n : Str) (t : FSNode) (es : FSEntries) :
    List.Perm (filesOfE (insE n t es))
      ((filesOfN t).map (fun pc => (n :: pc.1, pc.2)) ++ filesOfE es) := by
  induction es using entries_ind with
  | h0 => simp [insE, filesOfE]
  | h1 m u rest ih =>
    by_cases h : strLtB n m = true
    · simp [insE, h, filesOfE]
    · simp only [insE, h, Bool.false_eq_true, if_false]
      have e1 : filesOfE (.cons m u (insE n t rest)) =
          (filesOfN u).map (fun pc => (m :: pc.1, pc.2)) ++ filesOfE (insE n t rest) := by
        simp [filesOfE]
      have e2 : filesOfE (.cons m u rest) =
          (filesOfN u).map (fun pc => (m :: pc.1, pc.2)) ++ filesOfE rest := by
        simp [filesOfE]
      rw [e1, e2]
      refine (List.Perm.append_left _ ih).trans ?_
      rw [← List.append_assoc, ← List.append_assoc]
      exact List.Perm.append_right _ List.perm_append_comm

theorem filesOfE_sortE (es : FSEntries) :
    List.Perm (filesOfE (sortE es)) (filesOfE es) := by
  induction es using entries_ind with
  | h0 => simp [sortE]
  | h1 n t rest ih =>
    have e1 : sortE (.cons n t rest) = insE n t (sortE rest) := by simp [sortE]
    have e2 : filesOfE (.cons n t rest) =
        (filesOfN t).map (fun pc => (n :: pc.1, pc.2)) ++ filesOfE rest := by
      simp [filesOfE]
    rw [e1, e2]
    exact (filesOfE_insE n t (sortE rest)).trans (List.Perm.append_left _ ih)

theorem nodeDiscE_insE (n : Str) (t : FSNode) (es : FSEntries) :
    nodeDiscE (insE n t es) = (entryOk n t && nodeDiscE es) := by
  induction es using entries_ind with
  | h0 => simp [insE, nodeDiscE_cons]
  | h1 m u rest ih =>
    by_cases h : strLtB n m = true
    · simp [insE, h, nodeDiscE_cons]
    · simp only [insE, h, Bool.false_eq_true, if_false]
      rw [nodeDiscE_cons, ih, nodeDiscE_cons]
      cases entryOk n t <;> cases entryOk m u <;> simp

theorem nodeDiscE_sortE (es : FSEntries) : nodeDiscE (sortE es) = nodeDiscE es := by
  induction es using entries_ind with
  | h0 => rfl
  | h1 n t rest ih => rw [sortE, nodeDiscE_insE, ih, nodeDiscE_cons]

/-- Accumulated relative path over the walk. -/
def relJoinPath (rel : Str) (p : List Str) : Str := p.foldl relJoin rel

/-- Accumulated full path over the walk. -/
def fullJoinPath (full : Str) (p : List Str) : Str := p.foldl childPath full

/-- The walked rules are a permutation of the imports of all files of the
tree, given the name discipline and sufficient fuel. -/
theorem walkF_perm_filesOfE :
    ∀ (f : Nat) (es : FSEntries) (rel full : Str), sizeE es ≤ f →
      nodeDiscE es = true →
      List.Perm (walkF f es rel full)
        ((filesOfE es).map
          (fun pc => importMdFile (relJoinPath rel pc.1) (fullJoinPath full pc.1) pc.2)) := by
  intro f
  induction f with
  | zero => intro es rel full hf; exact absurd (le_trans (sizeE_pos es) hf) (by simp)
  | succ f ih =>
    intro es rel full hf hd
    cases es with
    | nil => simp [walkF, filesOfE]
    | cons n t rest =>
      rw [nodeDiscE_cons, Bool.and_eq_true] at hd
      cases t with
      | file c =>
        have hrest : sizeE rest ≤ f := by
          simp [sizeE, sizeN] at hf
          omega
        have hmd : endsWithMd n = true := by
          have h1 := hd.1
          simp [entryOk] at h1
          exact h1.1
        rw [walkF, hmd]
        simp only [if_pos rfl]
        have e2 : (filesOfE (.cons n (.file c) rest)).map
            (fun pc => importMdFile (relJoinPath rel pc.1) (fullJoinPath full pc.1) pc.2) =
            [importMdFile (relJoin rel n) (childPath full n) c] ++
              (filesOfE rest).map
                (fun pc => importMdFile (relJoinPath rel pc.1) (fullJoinPath full pc.1) pc.2) := by
          simp [filesOfE, filesOfN, relJoinPath, fullJoinPath]
        rw [e2]
        exact List.Perm.append_left _ (ih rest rel full hrest hd.2)
      | dir es2 =>
        have hrest : sizeE rest ≤ f := by
          have h1 := sizeE_pos es2
          simp [sizeE, sizeN] at hf
          omega
        have hdisc2 : nodeDiscE es2 = true := by
          have h1 := hd.1
          simp [entryOk, nodeDiscN] at h1
          exact h1.2
        have hes2 : sizeE (sortE es2) ≤ f := by
          rw [sizeE_sortE]
          have h1 := sizeE_pos rest
          simp [sizeE, sizeN] at hf
          omega
        rw [walkF]
        have h1 := ih (sortE es2) (relJoin rel n) (childPath full n) hes2
          (by rw [nodeDiscE_sortE]; exact hdisc2)
        have h2 := ih rest rel full hrest hd.2
        have h3 : List.Perm
            ((filesOfE (sortE es2)).map
              (fun pc => importMdFile (relJoinPath (relJoin rel n) pc.1)
                (fullJoinPath (childPath full n) pc.1) pc.2))
            ((filesOfE es2).map
              (fun pc => importMdFile (relJoinPath (relJoin rel n) pc.1)
                (fullJoinPath (childPath full n) pc.1) pc.2)) :=
          List.Perm.map _ (filesOfE_sortE es2)
        have e2 : (filesOfE (.cons n (.dir es2) rest)).map
            (fun pc => importMdFile (relJoinPath rel pc.1) (fullJoinPath full pc.1) pc.2) =
            (filesOfE es2).map
              (fun pc => importMdFile (relJoinPath (relJoin rel n) pc.1)
                (fullJoinPath (childPath full n) pc.1) pc.2) ++
            (filesOfE rest).map
              (fun pc => importMdFile (relJoinPath rel pc.1) (fullJoinPath full pc.1) pc.2) := by
          simp [filesOfE, filesOfN, List.map_map, relJoinPath, fullJoinPath,
            Function.comp]
        rw [e2]
        exact List.Perm.append (h1.trans h3) h2

/-! ### Insertion lemmas -/

/-- The segment paths of all files below a listing. -/
def pathsOfE (es : FSEntries) : List (List Str) := (filesOfE es).map Prod.fst

/-- A write path compatible with the tree discipline: nonempty, directory
segments not named `*.md`, filename ending in `.md`. -/
def pathDisc (p : List Str) : Prop :=
  p ≠ [] ∧ (∀ d ∈ p.dropLast, endsWithMd d = false) ∧ endsWithMd (p.getLastD []) = true

theorem filesOfE_setE_of_none {n : Str} {es : FSEntries} (v : FSNode)
    (h : findE n es = none) :
    filesOfE (setE n v es) =
      filesOfE es ++ (filesOfN v).map (fun pc => (n :: pc.1, pc.2)) := by
  induction es using entries_ind with
  | h0 => simp [setE, filesOfE]
  | h1 m u rest ih =>
    rw [findE] at h
    by_cases hm : m = n
    · rw [if_pos hm] at h; exact absurd h (by simp)
    · rw [if_neg hm] at h
      simp [setE, hm, filesOfE, ih h]

theorem nodeDiscE_setE_of_none {n : Str} {es : FSEntries} (v : FSNode)
    (h : findE n es = none) (hd : nodeDiscE es = true) (hv : entryOk n v = true) :
    nodeDiscE (setE n v es) = true := by
  induction es using entries_ind with
  | h0 =>
    rw [setE, nodeDiscE_cons, hv]
    simp [nodeDiscE]
  | h1 m u rest ih =>
    rw [findE] at h
    by_cases hm : m = n
    · rw [if_pos hm] at h; exact absurd h (by simp)
    · rw [if_neg hm] at h
      rw [nodeDiscE_cons, Bool.and_eq_true] at hd
      rw [setE, if_neg hm, nodeDiscE_cons, Bool.and_eq_true]
      exact ⟨hd.1, ih h hd.2⟩

theorem findE_some_entryOk {n : Str} {es : FSEntries} {t : FSNode}
    (h : findE n es = some t) (hd : nodeDiscE es = true) : entryOk n t = true := by
  induction es using entries_ind with
  | h0 => simp [findE] at h
  | h1 m u rest ih =>
    rw [findE] at h
    rw [nodeDiscE_cons, Bool.and_eq_true] at hd
    by_cases hm : m = n
    · rw [if_pos hm] at h
      cases h
      rw [← hm]
      exact hd.1
    · rw [if_neg hm] at h
      exact ih h hd.2

theorem filesOfE_setE_of_some {n : Str} {es : FSEntries} {t : FSNode}
    (h : findE n es = some t) :
    ∃ L R, filesOfE es = L ++ (filesOfN t).map (fun pc => (n :: pc.1, pc.2)) ++ R ∧
      ∀ v, filesOfE (setE n v es) =
        L ++ (filesOfN v).map (fun pc => (n :: pc.1, pc.2)) ++ R := by
  induction es using entries_ind with
  | h0 => simp [findE] at h
  | h1 m u rest ih =>
    rw [findE] at h
    by_cases hm : m = n
    · rw [if_pos hm] at h
      cases h
      subst hm
      refine ⟨[], filesOfE rest, by simp [filesOfE], fun v => ?_⟩
      simp [setE, filesOfE]
    · rw [if_neg hm] at h
      obtain ⟨L, R, hL, hset⟩ := ih h
      refine ⟨(filesOfN u).map (fun pc => (m :: pc.1, pc.2)) ++ L, R, ?_, fun v => ?_⟩
      · simp [filesOfE, hL]
      · simp [setE, hm, filesOfE, hset v]

theorem nodeDiscE_setE_of_some {n : Str} {es : FSEntries} {t : FSNode} (v : FSNode)
    (h : findE n es = some t) (hd : nodeDiscE es = true) (hv : entryOk n v = true) :
    nodeDiscE (setE n v es) = true := by
  induction es using entries_ind with
  | h0 => simp [findE] at h
  | h1 m u rest ih =>
    rw [findE] at h
    rw [nodeDiscE_cons, Bool.and_eq_true] at hd
    by_cases hm : m = n
    · rw [setE, if_pos hm, nodeDiscE_cons, Bool.and_eq_true]
      exact ⟨hm ▸ hv, hd.2⟩
    · rw [if_neg hm] at h
      rw [setE, if_neg hm, nodeDiscE_cons, Bool.and_eq_true]
      exact ⟨hd.1, ih h hd.2⟩

theorem pathDisc_cons₂ {n m : Str} {rest : List Str} (h : pathDisc (n :: m :: rest)) :
    endsWithMd n = false ∧ pathDisc (m :: rest) := by
  obtain ⟨-, hdrop, hlast⟩ := h
  refine ⟨hdrop n (by simp), by simp, ?_, ?_⟩
  · intro d hd
    exact hdrop d (by simp [hd])
  · simpa using hlast

/-- Inserting a disciplined fresh path into a disciplined directory adds
exactly that file and preserves the discipline. -/
theorem insertNode_files_perm :
    ∀ (p : List Str) (es : FSEntries) (c : FileContent), pathDisc p →
      nodeDiscE es = true → p ∉ pathsOfE es →
      ∃ es2, insertNode (.dir es) p c = .dir es2 ∧
        List.Perm (filesOfE es2) ((p, c) :: filesOfE es) ∧
        nodeDiscE es2 = true := by
  intro p
  induction p with
  | nil => intro es c hp; exact absurd rfl hp.1
  | cons n ptail ih =>
    intro es c hp hd hmem
    cases ptail with
    | nil =>
      -- writing the file `n` directly here
      have hn : endsWithMd n = true := by simpa [pathDisc] using hp.2.2
      have hnone : findE n es = none := by
        cases hfind : findE n es with
        | none => rfl
        | some u =>
          cases u with
          | file c0 =>
            obtain ⟨L, R, hL, -⟩ := filesOfE_setE_of_some hfind
            have hmemf : ([n], c0) ∈ filesOfE es := by
              rw [hL]
              simp [filesOfN]
            exact absurd (List.mem_map_of_mem Prod.fst hmemf) hmem
          | dir es2 =>
            have := findE_some_entryOk hfind hd
            simp [entryOk, hn] at this
      refine ⟨setE n (.file c) es, rfl, ?_, ?_⟩
      · rw [filesOfE_setE_of_none _ hnone]
        simp only [filesOfN, List.map_cons, List.map_nil]
        exact List.perm_append_comm
      · exact nodeDiscE_setE_of_none _ hnone hd (by simp [entryOk, nodeDiscN, hn])
    | cons m rest =>
      obtain ⟨hn, hp2⟩ := pathDisc_cons₂ hp
      cases hfind : findE n es with
      | none =>
        obtain ⟨es3, hins, hperm3, hdisc3⟩ :=
          ih (.nil) c hp2 (by simp [nodeDiscE]) (by simp [pathsOfE, filesOfE])
        refine ⟨setE n (insertNode ((findE n es).getD (.dir .nil)) (m :: rest) c) es,
          rfl, ?_, ?_⟩
        · rw [hfind]
          simp only [Option.getD_none, hins]
          rw [filesOfE_setE_of_none _ hfind]
          simp only [filesOfN]
          refine List.Perm.trans (List.Perm.append_left _ (List.Perm.map _ hperm3)) ?_
          simp only [List.map_cons]
          exact List.perm_append_comm.trans (by simp [filesOfE])
        · rw [hfind]
          simp only [Option.getD_none, hins]
          exact nodeDiscE_setE_of_none _ hfind hd (by simp [entryOk, nodeDiscN, hn, hdisc3])
      | some u =>
        cases u with
        | file c0 =>
          have := findE_some_entryOk hfind hd
          simp [entryOk, hn] at this
        | dir es2 =>
          have hok := findE_some_entryOk hfind hd
          have hdisc2 : nodeDiscE es2 = true := by
            simp [entryOk, nodeDiscN] at hok
            exact hok.2
          obtain ⟨L, R, hL, hset⟩ := filesOfE_setE_of_some hfind
          have hmem2 : (m :: rest) ∉ pathsOfE es2 := by
            intro hin
            apply hmem
            simp only [pathsOfE, hL, filesOfN]
            simp only [List.map_append, List.mem_append]
            refine Or.inl (Or.inr ?_)
            simp only [pathsOfE, List.map_map, List.mem_map] at hin ⊢
            obtain ⟨pc, hpc, hfst⟩ := hin
            exact ⟨pc, hpc, by simp [Function.comp, hfst]⟩
          obtain ⟨es3, hins, hperm3, hdisc3⟩ := ih es2 c hp2 hdisc2 hmem2
          refine ⟨setE n (insertNode ((findE n es).getD (.dir .nil)) (m :: rest) c) es,
            rfl, ?_, ?_⟩
          · rw [hfind]
            simp only [Option.getD_some, hins, hset, filesOfN]
            rw [hL]
            refine List.Perm.trans
              (List.Perm.append_right R
                (List.Perm.append_left L (List.Perm.map _ hperm3))) ?_
            simp only [List.map_cons]
            have hmid : List.Perm
                (L ++ ((n :: m :: rest, c) ::
                  (filesOfE es2).map (fun pc => (n :: pc.1, pc.2))) ++ R)
                ((n :: m :: rest, c) ::
                  (L ++ (filesOfE es2).map (fun pc => (n :: pc.1, pc.2)) ++ R)) := by
              rw [List.append_assoc, List.append_assoc]
              exact List.perm_middle
            exact hmid
          · rw [hfind]
            simp only [Option.getD_some, hins]
            exact nodeDiscE_setE_of_some _ hfind hd
              (by simp [entryOk, nodeDiscN, hn, hdisc3])

/-- Performing a list of disciplined, pairwise-distinct, fresh writes on a
disciplined directory produces exactly those files on top of the existing
ones. -/
theorem foldl_insert_files :
    ∀ (ws : List (List Str × FileContent)) (es : FSEntries),
      nodeDiscE es = true → (∀ w ∈ ws, pathDisc w.1) →
      (ws.map Prod.fst).Nodup → (∀ w ∈ ws, w.1 ∉ pathsOfE es) →
      ∃ es2, ws.foldl (fun t pc => insertNode t pc.1 pc.2) (.dir es) = .dir es2 ∧
        List.Perm (filesOfE es2) (ws ++ filesOfE es) ∧ nodeDiscE es2 = true := by
  intro ws
  induction ws with
  | nil =>
    intro es hd _ _ _
    exact ⟨es, rfl, by simp, hd⟩
  | cons w ws ih =>
    intro es hd hdisc hnodup hfresh
    obtain ⟨es1, hins, hperm1, hd1⟩ :=
      insertNode_files_perm w.1 es w.2 (hdisc w (by simp)) hd (hfresh w (by simp))
    have hpaths1 : List.Perm (pathsOfE es1) (w.1 :: pathsOfE es) := by
      simpa [pathsOfE] using List.Perm.map Prod.fst hperm1
    have hfresh1 : ∀ w' ∈ ws, w'.1 ∉ pathsOfE es1 := by
      intro w' hw' hin
      have hin2 : w'.1 ∈ w.1 :: pathsOfE es := hpaths1.mem_iff.mp hin
      rcases List.mem_cons.mp hin2 with heq | hin3
      · rw [List.map_cons, List.nodup_cons] at hnodup
        exact hnodup.1 (heq ▸ List.mem_map_of_mem Prod.fst hw')
      · exact hfresh w' (by simp [hw']) hin3
    obtain ⟨es2, hfold, hperm2, hd2⟩ := ih es1 hd1
      (fun w' hw' => hdisc w' (by simp [hw']))
      (by rw [List.map_cons, List.nodup_cons] at hnodup; exact hnodup.2) hfresh1
    refine ⟨es2, ?_, ?_, hd2⟩
    · rw [List.foldl_cons, hins, hfold]
    · refine hperm2.trans ?_
      refine (List.Perm.append_left ws hperm1).trans ?_
      exact List.perm_middle

/-! ### Export-side lemmas -/

/-- The validity assumptions of the round trip for one rule: a well-formed
id whose segments moreover do not end in `.md` (so directories and
`.md` files cannot collide), no explicit private flag, and an exported
location that the path classifier does not consider private. -/
def c1Valid (r : RuleBlock) : Prop :=
  wfId r.metadata.id ∧
  (∀ s ∈ splitSlash r.metadata.id, endsWithMd s = false) ∧
  r.metadata.priv = none ∧
  isPrivateRule (fullJoinPath agentRootStr (exportPath r.metadata.id false 1)) = false

instance (r : RuleBlock) : Decidable (c1Valid r) := by unfold c1Valid; infer_instance

theorem exportPath_false_ordinal (id : Str) (a b : Nat) :
    exportPath id false a = exportPath id false b := by
  unfold exportPath
  split
  · rfl
  · simp

/-- With no private rule in the list, the export writes are a plain map over
the rules (the ordinal counter is never consumed). -/
theorem exportWritesFrom_no_priv :
    ∀ (rules : List RuleBlock) (idx : Nat), (∀ r ∈ rules, r.metadata.priv ≠ some true) →
      exportWritesFrom rules idx =
        rules.map (fun r => (exportPath r.metadata.id false 1, exportContent r)) := by
  intro rules
  induction rules with
  | nil => intro idx _; rfl
  | cons r rs ih =>
    intro idx h
    have hr : r.metadata.priv ≠ some true := h r (by simp)
    have hdec : decide (r.metadata.priv = some true) = false := by
      simp [hr]
    by_cases hm : r.metadata.id ≠ [] ∧ '/' ∈ r.metadata.id
    · rw [exportWritesFrom, if_pos hm, ih idx (fun r' hr' => h r' (by simp [hr']))]
      rw [List.map_cons]
      have : exportPath r.metadata.id (decide (r.metadata.priv = some true)) idx =
          exportPath r.metadata.id false 1 := by
        rw [hdec]
        exact exportPath_false_ordinal _ _ _
      rw [this]
    · rw [exportWritesFrom, if_neg hm, if_neg (by simp at hdec ⊢; exact hdec),
        ih idx (fun r' hr' => h r' (by simp [hr']))]
      rw [List.map_cons, exportPath_false_ordinal r.metadata.id idx 1]

theorem exportPath_segs_ne_nil {id : Str} (hwf : wfId id) (ord : Nat) :
    ∀ s ∈ exportPath id false ord, s ≠ [] := by
  intro s hs
  unfold exportPath at hs
  split at hs
  · rcases List.mem_append.mp hs with h | h
    · exact (List.mem_filter.mp h).2 |> (by simpa using ·)
    · rw [List.mem_singleton.mp h]
      simp [mdExt]
  · rw [if_neg (by simp)] at hs
    rw [List.mem_singleton.mp hs]
    have := wfId_ne_nil hwf
    simp [this, mdExt]

theorem pathDisc_exportPath {id : Str} (hwf : wfId id)
    (hmd : ∀ s ∈ splitSlash id, endsWithMd s = false) (ord : Nat) :
    pathDisc (exportPath id false ord) := by
  by_cases hs : '/' ∈ id
  · have hcond : id ≠ [] ∧ '/' ∈ id := ⟨wfId_ne_nil hwf, hs⟩
    rw [pathDisc, exportPath, if_pos hcond]
    refine ⟨by simp, ?_, ?_⟩
    · rw [List.dropLast_concat]
      intro d hd
      have : d ∈ (splitSlash id).dropLast := List.mem_of_mem_filter hd
      exact hmd d (List.dropLast_subset _ this)
    · rw [List.getLastD_concat]
      exact endsWithMd_append _
  · have hcond : ¬(id ≠ [] ∧ '/' ∈ id) := fun h => hs h.2
    rw [pathDisc, exportPath, if_neg hcond, if_neg (by simp)]
    refine ⟨by simp, by simp, ?_⟩
    rw [if_neg (wfId_ne_nil hwf)]
    simpa [List.getLastD] using endsWithMd_append id

theorem exportPath_inj {id1 id2 : Str} (hwf1 : wfId id1) (hwf2 : wfId id2)
    (a b : Nat) (h : exportPath id1 false a = exportPath id2 false b) : id1 = id2 := by
  have hjoin : encodeRelPath id1 false a = encodeRelPath id2 false b := by
    rw [encodeRelPath, encodeRelPath, h]
  rw [encodeRelPath_eq_append hwf1, encodeRelPath_eq_append hwf2] at hjoin
  exact List.append_cancel_right hjoin

theorem relJoinPath_ne :
    ∀ (p : List Str) (rel : Str), rel ≠ [] → relJoinPath rel p = joinChar '/' (rel :: p) := by
  intro p
  induction p with
  | nil => intro rel _; simp [relJoinPath, joinChar]
  | cons s rest ih =>
    intro rel hrel
    have hstep : relJoinPath rel (s :: rest) = relJoinPath (rel ++ '/' :: s) rest := by
      simp [relJoinPath, relJoin, hrel]
    rw [hstep, ih _ (by simp)]
    cases rest with
    | nil => simp [joinChar]
    | cons t ts => simp [joinChar, List.append_assoc]

theorem relJoinPath_nil_eq_joinSlash (p : List Str) (hne : p ≠ [])
    (hsegs : ∀ s ∈ p, s ≠ []) : relJoinPath [] p = joinSlash p := by
  cases p with
  | nil => exact absurd rfl hne
  | cons s rest =>
    have hs : s ≠ [] := hsegs s (by simp)
    have hstep : relJoinPath [] (s :: rest) = relJoinPath s rest := by
      simp [relJoinPath, relJoin]
    cases rest with
    | nil => simp [hstep, relJoinPath, joinSlash, joinChar, relJoin]
    | cons t ts => rw [hstep, relJoinPath_ne _ s hs]; rfl

/-- Importing the exported file of a valid rule reproduces the rule with
trimmed content. -/
theorem importMdFile_export (r : RuleBlock) (h : c1Valid r) :
    importMdFile (relJoinPath [] (exportPath r.metadata.id false 1))
      (fullJoinPath agentRootStr (exportPath r.metadata.id false 1))
      (exportContent r) = ⟨r.metadata, jsTrim r.content⟩ := by
  obtain ⟨⟨id0, aa0, sc0, tr0, ma0, pr0, de0, gl0, pv0, ex0⟩, content0⟩ := r
  obtain ⟨hwf, hmd, hpriv, hclass⟩ := h
  simp only at hwf hmd hpriv hclass ⊢
  subst hpriv
  have hrel : relJoinPath [] (exportPath id0 false 1) = encodeRelPath id0 false 1 := by
    rw [relJoinPath_nil_eq_joinSlash _ (pathDisc_exportPath hwf hmd 1).1
      (exportPath_segs_ne_nil hwf 1)]
    rfl
  simp only [importMdFile, exportContent, exportFrontmatter]
  rw [hrel, decode_encode_of_wf hwf 1]
  simp [hclass]

/-! ### The YAML gate of the round trip

`exportToAgent` renders each rule's frontmatter with `matter.stringify`
and the safe engine of `yaml-parser.ts` (src/exporters.ts:211), which
unquotes `*`-leading glob values; `importAgent` re-reads each file with a
plain `matter(content)` call (src/importers.ts:236) that passes no
`grayMatterOptions`, so its standard YAML engine throws an "unidentified
alias" error on any unquoted `*`-leading scalar.  The round trip therefore
only completes when every written frontmatter, rendered through the safe
stringifier, is still loadable by the plain engine.  Both the rendering and
the two engines are the linewise embedding of `yaml-parser.ts` above. -/

/-- A boolean as dumped by js-yaml. -/
def boolYaml (b : Bool) : Str := if b then "true".data else "false".data

/-- A frontmatter string-or-list value as a YAML value. -/
def svalYaml : SVal → YVal
  | .str s => .str s
  | .list xs => .list xs

/-- The key/value sequence a stored frontmatter serialises to, in the
insertion order used by `exportToAgent` (src/exporters.ts:188–208): the
allow-listed keys when present, then the remaining keys, with a false or
absent `private` elided.  (An explicit `id` key, which the exporter never
writes, is rendered first.) -/
def fmToYaml (fm : Frontmatter) : List (Str × YVal) :=
  ((fm.id.map (fun i => [("id".data, YVal.str i)])).getD []) ++
  ((fm.description.map (fun d => [("description".data, YVal.str d)])).getD []) ++
  ((fm.alwaysApply.map (fun b => [("alwaysApply".data, YVal.str (boolYaml b))])).getD []) ++
  ((fm.globs.map (fun g => [("globs".data, svalYaml g)])).getD []) ++
  ((fm.manual.map (fun b => [("manual".data, YVal.str (boolYaml b))])).getD []) ++
  ((fm.scope.map (fun s => [("scope".data, svalYaml s)])).getD []) ++
  ((fm.priority.map (fun p => [("priority".data, YVal.str p)])).getD []) ++
  ((fm.triggers.map (fun ts => [("triggers".data, YVal.list ts)])).getD []) ++
  (fm.extra.map (fun kv => (kv.1, YVal.str kv.2))) ++
  (if fm.priv = some true then [("private".data, YVal.str "true".data)] else [])

/-- Does the plain `matter(content)` call of `importAgent`
(src/importers.ts:236) succeed on the file text that `matter.stringify`
with the safe engine (src/exporters.ts:211) produced for this stored
frontmatter?  `*`-leading values that the safe stringifier unquoted make
the standard engine fail here, exactly as the real parse throws. -/
def fmParsesPlain (fm : Frontmatter) : Bool :=
  (miniLoad (safeStringify (fmToYaml fm))).isSome

/-- `findMarkdownFiles` with the plain-parse failure modelled: as `walkF`,
but a `.md` file whose frontmatter the standard engine cannot re-load makes
the whole walk propagate the thrown error. -/
def walkFE : Nat → FSEntries → Str → Str → Except Unit (List RuleBlock)
  | 0, _, _, _ => .ok []
  | _ + 1, .nil, _, _ => .ok []
  | f + 1, .cons n (.file c) rest, rel, full =>
      if endsWithMd n then
        if fmParsesPlain c.fm then
          match walkFE f rest rel full with
          | .ok rs => .ok (importMdFile (relJoin rel n) (childPath full n) c :: rs)
          | .error e => .error e
        else .error ()
      else walkFE f rest rel full
  | f + 1, .cons n (.dir es) rest, rel, full =>
      match walkFE f (sortE es) (relJoin rel n) (childPath full n) with
      | .ok rs1 =>
        match walkFE f rest rel full with
        | .ok rs2 => .ok (rs1 ++ rs2)
        | .error e => .error e
      | .error e => .error e

/-- `importAgent` (src/importers.ts:217–275) with the line-236 plain
gray-matter parse modelled: a thrown "unidentified alias" becomes
`.error ()`, a completed walk `.ok`. -/
def importAgentModelE : FSNode → Except Unit (List RuleBlock)
  | .file _ => .ok []
  | .dir es => walkFE (sizeE es + 1) (sortE es) [] agentRootStr

/-- When every file's stored frontmatter survives the plain re-parse, the
error-aware walk completes and agrees with `walkF`. -/
theorem walkFE_eq_ok :
    ∀ (f : Nat) (es : FSEntries) (rel full : Str),
      (∀ pc ∈ filesOfE es, fmParsesPlain pc.2.fm = true) →
      walkFE f es rel full = .ok (walkF f es rel full) := by
  intro f
  induction f with
  | zero => intro es rel full _; rfl
  | succ f ih =>
    intro es rel full h
    cases es with
    | nil => rfl
    | cons n t rest =>
      cases t with
      | file c =>
        have hc : fmParsesPlain c.fm = true := by
          refine h ([n], c) ?_
          simp [filesOfE, filesOfN]
        have hrest : ∀ pc ∈ filesOfE rest, fmParsesPlain pc.2.fm = true := by
          intro pc hpc
          refine h pc ?_
          simp only [filesOfE, filesOfN, List.mem_append]
          exact Or.inr hpc
        by_cases hmd : endsWithMd n = true
        · rw [walkFE, walkF, ih rest rel full hrest]
          simp [hmd, hc]
        · rw [walkFE, walkF, ih rest rel full hrest]
          simp [hmd]
      | dir es2 =>
        have hsub : ∀ pc ∈ filesOfE (sortE es2), fmParsesPlain pc.2.fm = true := by
          intro pc hpc
          have hpc2 : pc ∈ filesOfE es2 := (filesOfE_sortE es2).mem_iff.mp hpc
          have hmem : (n :: pc.1, pc.2) ∈ filesOfE (.cons n (.dir es2) rest) := by
            simp only [filesOfE, filesOfN, List.mem_append, List.mem_map]
            exact Or.inl ⟨pc, hpc2, rfl⟩
          exact h (n :: pc.1, pc.2) hmem
        have hrest : ∀ pc ∈ filesOfE rest, fmParsesPlain pc.2.fm = true := by
          intro pc hpc
          refine h pc ?_
          simp only [filesOfE, filesOfN, List.mem_append]
          exact Or.inr hpc
        rw [walkFE, walkF, ih (sortE es2) (relJoin rel n) (childPath full n) hsub,
          ih rest rel full hrest]

/-- The export/import YAML asymmetry bites: a one-rule list with a
`*`-leading glob scalar meets every well-formedness condition of the round
trip, yet the safe stringifier writes its glob unquoted and the plain parse
of `importAgent` throws on it, so the modelled round trip ends in an
error instead of returning any rules. -/
theorem star_glob_roundtrip_error :
    c1Valid ⟨{ id := "g".data, globs := some (.str "*.ts".data) }, "X".data⟩ ∧
    importAgentModelE (exportToAgentModel
        [⟨{ id := "g".data, globs := some (.str "*.ts".data) }, "X".data⟩]) =
      .error () :=
  ⟨by decide, rfl⟩

/-! ## Claim C1 -/

/-- Counterexample to **C1** as stated: exporting the two public rules
`b`, `a` (unique well-formed ids, valid metadata, nothing private) and
re-importing parses cleanly but does NOT return the same list — the
importer returns the rules in sorted traversal order `a`, `b`, not in the
original order. -/
theorem c1_counterexample :
    importAgentModelE (exportToAgentModel
        [⟨{ id := "b".data }, "B".data⟩, ⟨{ id := "a".data }, "A".data⟩]) =
      .ok [⟨{ id := "a".data }, jsTrim "A".data⟩,
        ⟨{ id := "b".data }, jsTrim "B".data⟩] ∧
    ([⟨{ id := "a".data }, jsTrim "A".data⟩,
        ⟨{ id := "b".data }, jsTrim "B".data⟩] : List RuleBlock) ≠
      [⟨{ id := "b".data }, jsTrim "B".data⟩, ⟨{ id := "a".data }, jsTrim "A".data⟩] :=
  ⟨rfl, by decide⟩

/-- **C1 (amended)**: for every rule list with pairwise-distinct well-formed
ids (no segment of which ends in `.md`), no explicit private flags, export
locations the path classifier does not flag, and frontmatter that the
plain gray-matter parse of `importAgent` can re-load after the safe
stringifier of `exportToAgent` rendered it (in particular no `*`-leading
glob, scope or trigger values, which the safe engine unquotes and the
plain engine then rejects), re-importing the exported tree completes
without a parse error and returns a permutation of the rule list with
every content whitespace-trimmed: the same rules come back, reordered into
the importer's deterministic traversal order. -/
theorem c1_roundtrip_perm (rules : List RuleBlock)
    (hids : (rules.map (fun r => r.metadata.id)).Nodup)
    (hvalid : ∀ r ∈ rules, c1Valid r)
    (hparse : ∀ r ∈ rules, fmParsesPlain (exportFrontmatter r.metadata) = true) :
    importAgentModelE (exportToAgentModel rules) =
      .ok (importAgentModel (exportToAgentModel rules)) ∧
    List.Perm (importAgentModel (exportToAgentModel rules))
      (rules.map (fun r => ⟨r.metadata, jsTrim r.content⟩)) := by
  have hwrites : exportWrites rules =
      rules.map (fun r => (exportPath r.metadata.id false 1, exportContent r)) :=
    exportWritesFrom_no_priv rules 1
      (fun r hr => by rw [(hvalid r hr).2.2.1]; simp)
  have hdiscW : ∀ w ∈ exportWrites rules, pathDisc w.1 := by
    rw [hwrites]
    intro w hw
    obtain ⟨r, hr, rfl⟩ := List.mem_map.mp hw
    exact pathDisc_exportPath (hvalid r hr).1 (hvalid r hr).2.1 1
  have hnodupW : ((exportWrites rules).map Prod.fst).Nodup := by
    rw [hwrites, List.map_map]
    have heq : (rules.map (Prod.fst ∘ fun r => (exportPath r.metadata.id false 1,
        exportContent r))) =
        (rules.map (fun r => r.metadata.id)).map (fun id => exportPath id false 1) := by
      rw [List.map_map]
      rfl
    rw [heq]
    refine (List.nodup_map_iff_inj_on hids).mpr ?_
    intro x hx y hy hxy
    obtain ⟨rx, hrx, rfl⟩ := List.mem_map.mp hx
    obtain ⟨ry, hry, rfl⟩ := List.mem_map.mp hy
    exact exportPath_inj (hvalid rx hrx).1 (hvalid ry hry).1 1 1 hxy
  obtain ⟨es2, hfold, hperm, hdisc⟩ := foldl_insert_files (exportWrites rules) .nil
    (by simp [nodeDiscE]) hdiscW hnodupW (by simp [pathsOfE, filesOfE])
  have htree : exportToAgentModel rules = .dir es2 := by
    rw [exportToAgentModel]
    exact hfold
  have hfiles : ∀ pc ∈ filesOfE es2, fmParsesPlain pc.2.fm = true := by
    intro pc hpc
    have hpc2 : pc ∈ exportWrites rules ++ filesOfE FSEntries.nil := hperm.mem_iff.mp hpc
    rw [show filesOfE FSEntries.nil = [] from rfl, List.append_nil, hwrites] at hpc2
    obtain ⟨r, hr, rfl⟩ := List.mem_map.mp hpc2
    simpa [exportContent] using hparse r hr
  constructor
  · rw [htree]
    show walkFE (sizeE es2 + 1) (sortE es2) [] agentRootStr =
      .ok (walkF (sizeE es2 + 1) (sortE es2) [] agentRootStr)
    refine walkFE_eq_ok _ _ _ _ ?_
    intro pc hpc
    exact hfiles pc ((filesOfE_sortE es2).mem_iff.mp hpc)
  · rw [htree]
    rw [importAgentModel]
    refine (walkF_perm_filesOfE (sizeE es2 + 1) (sortE es2) [] agentRootStr
      (by rw [sizeE_sortE]; omega) (by rw [nodeDiscE_sortE]; exact hdisc)).trans ?_
    refine (List.Perm.map _ ((filesOfE_sortE es2).trans hperm)).trans ?_
    rw [show filesOfE FSEntries.nil = [] from rfl, List.append_nil, hwrites, List.map_map]
    have heq3 : (rules.map ((fun pc : List Str × FileContent =>
        importMdFile (relJoinPath [] pc.1) (fullJoinPath agentRootStr pc.1) pc.2) ∘
          fun r => (exportPath r.metadata.id false 1, exportContent r))) =
        rules.map (fun r => ⟨r.metadata, jsTrim r.content⟩) :=
      List.map_congr_left (fun r hr => importMdFile_export r (hvalid r hr))
    rw [heq3]

/-- A concrete two-rule list for the C1 witness (out of traversal order,
with a flat and a nested id). -/
def c1WitnessRules : List RuleBlock :=
  [⟨{ id := "b".data }, " B ".data⟩, ⟨{ id := "a/x".data }, "A".data⟩]

/-- Witness for C1 (amended) on a concrete two-rule list. -/
theorem c1_roundtrip_perm_witness :
    ((c1WitnessRules.map (fun r => r.metadata.id)).Nodup ∧
      (∀ r ∈ c1WitnessRules, c1Valid r) ∧
      (∀ r ∈ c1WitnessRules, fmParsesPlain (exportFrontmatter r.metadata) = true)) ∧
    (importAgentModelE (exportToAgentModel c1WitnessRules) =
        .ok (importAgentModel (exportToAgentModel c1WitnessRules)) ∧
      List.Perm (importAgentModel (exportToAgentModel c1WitnessRules))
        (c1WitnessRules.map (fun r => ⟨r.metadata, jsTrim r.content⟩))) :=
  ⟨⟨by decide, by decide, by decide⟩,
    c1_roundtrip_perm _ (by decide) (by decide) (by decide)⟩

/-! ## exportToCursor and exportToCopilot (src/exporters.ts:135–155, 216–265) -/

/-- The `.mdc` extension used by `exportToCursor`. -/
def mdcExt : Str := ['.', 'm', 'd', 'c']

/-- The path construction of `exportToCursor` (src/exporters.ts:224–237):
as for the agent exporter but with `.mdc` and no private segregation. -/
def cursorPath (id : Str) : List Str :=
  if id ≠ [] ∧ '/' ∈ id then
    ((splitSlash id).dropLast.filter (fun s => s ≠ [])) ++
      [(splitSlash id).getLastD [] ++ mdcExt]
  else
    [(if id = [] then ruleFallback else id) ++ mdcExt]

/-- `rules.filter(rule => !rule.metadata.private || options?.includePrivate)`
as used by `exportToCursor` (src/exporters.ts:221). -/
def cursorKept (rules : List RuleBlock) (opts : ExportOptions) : List RuleBlock :=
  rules.filter (fun r => !decide (r.metadata.priv = some true) || opts.includePrivate)

/-- The writes of `exportToCursor`. -/
def exportToCursorWrites (rules : List RuleBlock) (opts : ExportOptions) :
    List (List Str × FileContent) :=
  (cursorKept rules opts).map (fun r => (cursorPath r.metadata.id, exportContent r))

/-- The identical private filter of `exportToCopilot`
(src/exporters.ts:137). -/
def copilotKept (rules : List RuleBlock) (opts : ExportOptions) : List RuleBlock :=
  rules.filter (fun r => !decide (r.metadata.priv = some true) || opts.includePrivate)

/-! ## Claim C8 -/

/-- The file contents below a listing. -/
def contentsE (es : FSEntries) : List FileContent := (filesOfE es).map Prod.snd

/-- The file contents of a node. -/
def contentsN (t : FSNode) : List FileContent := (filesOfN t).map Prod.snd

theorem contentsN_file (c : FileContent) : contentsN (.file c) = [c] := rfl

theorem contentsN_dir (es : FSEntries) : contentsN (.dir es) = contentsE es := rfl

theorem contentsE_nil : contentsE .nil = [] := rfl

theorem contentsE_cons (n : Str) (t : FSNode) (rest : FSEntries) :
    contentsE (.cons n t rest) = contentsN t ++ contentsE rest := by
  simp [contentsE, contentsN, filesOfE, List.map_map, Function.comp]

theorem contentsE_setE {n : Str} {es : FSEntries} {v : FSNode} :
    ∀ x ∈ contentsE (setE n v es), x ∈ contentsN v ∨ x ∈ contentsE es := by
  induction es using entries_ind with
  | h0 =>
    intro x hx
    rw [setE, contentsE_cons, contentsE_nil, List.append_nil] at hx
    exact Or.inl hx
  | h1 m u rest ih =>
    intro x hx
    by_cases hm : m = n
    · rw [setE, if_pos hm, contentsE_cons] at hx
      rcases List.mem_append.mp hx with h | h
      · exact Or.inl h
      · exact Or.inr (by rw [contentsE_cons]; exact List.mem_append.mpr (Or.inr h))
    · rw [setE, if_neg hm, contentsE_cons] at hx
      rcases List.mem_append.mp hx with h | h
      · exact Or.inr (by rw [contentsE_cons]; exact List.mem_append.mpr (Or.inl h))
      · rcases ih x h with h2 | h2
        · exact Or.inl h2
        · exact Or.inr (by rw [contentsE_cons]; exact List.mem_append.mpr (Or.inr h2))

theorem contentsN_findE {n : Str} {es : FSEntries} {u : FSNode}
    (h : findE n es = some u) : ∀ x ∈ contentsN u, x ∈ contentsE es := by
  induction es using entries_ind with
  | h0 => simp [findE] at h
  | h1 m t rest ih =>
    intro x hx
    rw [findE] at h
    by_cases hm : m = n
    · rw [if_pos hm] at h
      cases h
      rw [contentsE_cons]
      exact List.mem_append.mpr (Or.inl hx)
    · rw [if_neg hm] at h
      rw [contentsE_cons]
      exact List.mem_append.mpr (Or.inr (ih h x hx))

theorem contentsN_insertNode :
    ∀ (p : List Str) (t : FSNode) (c : FileContent) (x : FileContent),
      x ∈ contentsN (insertNode t p c) → x = c ∨ x ∈ contentsN t := by
  intro p
  induction p with
  | nil => intro t c x hx; exact Or.inr (by simpa [insertNode] using hx)
  | cons n ptail ih =>
    intro t c x hx
    cases t with
    | file b => exact Or.inr (by simpa [insertNode] using hx)
    | dir es =>
      cases ptail with
      | nil =>
        rw [insertNode, contentsN_dir] at hx
        rcases contentsE_setE x hx with h | h
        · rw [contentsN_file, List.mem_singleton] at h
          exact Or.inl h
        · exact Or.inr (by rw [contentsN_dir]; exact h)
      | cons m rest =>
        rw [insertNode, contentsN_dir] at hx
        rcases contentsE_setE x hx with h | h
        · rcases ih _ c x h with h2 | h2
          · exact Or.inl h2
          · cases hfind : findE n es with
            | none =>
              rw [hfind, Option.getD_none, contentsN_dir, contentsE_nil] at h2
              exact absurd h2 (List.not_mem_nil x)
            | some u =>
              rw [hfind, Option.getD_some] at h2
              exact Or.inr (by rw [contentsN_dir]; exact contentsN_findE hfind x h2)
        · exact Or.inr (by rw [contentsN_dir]; exact h)

theorem contentsN_foldl_insert :
    ∀ (ws : List (List Str × FileContent)) (t : FSNode) (x : FileContent),
      x ∈ contentsN (ws.foldl (fun t pc => insertNode t pc.1 pc.2) t) →
      x ∈ ws.map Prod.snd ∨ x ∈ contentsN t := by
  intro ws
  induction ws with
  | nil => intro t x hx; exact Or.inr hx
  | cons w ws ih =>
    intro t x hx
    rw [List.foldl_cons] at hx
    rcases ih _ x hx with h | h
    · exact Or.inl (by rw [List.map_cons]; exact List.mem_cons_of_mem _ h)
    · rcases contentsN_insertNode _ _ _ _ h with h2 | h2
      · exact Or.inl (by rw [List.map_cons, h2]; exact List.mem_cons_self _ _)
      · exact Or.inr h2

theorem exportFrontmatter_priv_ne_some_false (m : RuleMetadata) :
    (exportFrontmatter m).priv ≠ some false := by
  rw [exportFrontmatter]
  cases hp : m.priv with
  | none => simp
  | some b => cases b <;> simp

theorem exportWritesFrom_content :
    ∀ (rules : List RuleBlock) (idx : Nat) (w : List Str × FileContent),
      w ∈ exportWritesFrom rules idx → ∃ r ∈ rules, w.2 = exportContent r := by
  intro rules
  induction rules with
  | nil => intro idx w hw; simp [exportWritesFrom] at hw
  | cons r rs ih =>
    intro idx w hw
    rw [exportWritesFrom] at hw
    split at hw
    · rcases List.mem_cons.mp hw with rfl | hw2
      · exact ⟨r, by simp, rfl⟩
      · obtain ⟨r2, hr2, he⟩ := ih idx w hw2
        exact ⟨r2, by simp [hr2], he⟩
    · split at hw
      all_goals
        rcases List.mem_cons.mp hw with rfl | hw2
        · exact ⟨r, by simp, rfl⟩
        · obtain ⟨r2, hr2, he⟩ := ih _ w hw2
          exact ⟨r2, by simp [hr2], he⟩

/-- **C8**: no frontmatter block written by the tree exporter
(`exportToAgent`) — nor by `exportToCursor` — ever carries `private: false`;
an explicit `false` is elided, so the key's absence means public. -/
theorem c8_private_false_never_written (rules : List RuleBlock) (opts : ExportOptions) :
    (∀ pc ∈ filesOfN (exportToAgentModel rules), pc.2.fm.priv ≠ some false) ∧
    (∀ w ∈ exportToCursorWrites rules opts, w.2.fm.priv ≠ some false) := by
  constructor
  · intro pc hpc
    have hx : pc.2 ∈ contentsN (exportToAgentModel rules) :=
      List.mem_map_of_mem Prod.snd hpc
    rw [exportToAgentModel] at hx
    rcases contentsN_foldl_insert _ _ _ hx with h | h
    · simp only [List.mem_map] at h
      obtain ⟨w, hw, he⟩ := h
      obtain ⟨r, -, hc⟩ := exportWritesFrom_content rules 1 w hw
      rw [← he, hc]
      exact exportFrontmatter_priv_ne_some_false r.metadata
    · simp [contentsN, filesOfN, filesOfE] at h
  · intro w hw
    simp only [exportToCursorWrites, List.mem_map] at hw
    obtain ⟨r, -, rfl⟩ := hw
    exact exportFrontmatter_priv_ne_some_false r.metadata

/-- Witness for C8: a rule exported with explicit `private: false` and one
with `private: true`, checked through the theorem. -/
theorem c8_private_false_never_written_witness :
    (((["pf.md".data],
        (⟨exportFrontmatter { id := "pf".data, priv := some false }, "X".data⟩ :
          FileContent)) :
        List Str × FileContent).2.fm.priv ≠ some false) ∧
    ((cursorPath "pf".data,
        (⟨exportFrontmatter { id := "pf".data, priv := some false }, "X".data⟩ :
          FileContent)).2.fm.priv ≠ some false) :=
  ⟨(c8_private_false_never_written
      [⟨{ id := "pf".data, priv := some false }, "X".data⟩] {}).1
      (["pf.md".data], ⟨exportFrontmatter { id := "pf".data, priv := some false },
        "X".data⟩) (by decide),
   (c8_private_false_never_written
      [⟨{ id := "pf".data, priv := some false }, "X".data⟩] {}).2
      (cursorPath "pf".data, ⟨exportFrontmatter { id := "pf".data, priv := some false },
        "X".data⟩) (by decide)⟩

/-! ## Claim C10 -/

/-- Is this rule written through the private single-segment branch
(the only branch that consumes the ordinal counter)? -/
def privSingle (r : RuleBlock) : Bool :=
  !decide (r.metadata.id ≠ [] ∧ '/' ∈ r.metadata.id) &&
    decide (r.metadata.priv = some true)

theorem exportWritesFrom_length :
    ∀ (rules : List RuleBlock) (idx : Nat),
      (exportWritesFrom rules idx).length = rules.length := by
  intro rules
  induction rules with
  | nil => intro idx; rfl
  | cons r rs ih =>
    intro idx
    rw [exportWritesFrom]
    split
    · simp [ih]
    · split <;> simp [ih]

theorem exportWritesFrom_get? :
    ∀ (rules : List RuleBlock) (idx i : Nat) (r : RuleBlock), rules[i]? = some r →
      (exportWritesFrom rules idx)[i]? =
        some (exportPath r.metadata.id (decide (r.metadata.priv = some true))
          (idx + ((rules.take i).filter privSingle).length), exportContent r) := by
  intro rules
  induction rules with
  | nil => intro idx i r h; simp at h
  | cons r0 rs ih =>
    intro idx i r h
    cases i with
    | zero =>
      rw [List.getElem?_cons_zero, Option.some.injEq] at h
      subst h
      simp only [List.take_zero, List.filter_nil, List.length_nil, Nat.add_zero,
        exportWritesFrom]
      by_cases hm : r0.metadata.id ≠ [] ∧ '/' ∈ r0.metadata.id
      · rw [if_pos hm, List.getElem?_cons_zero]
      · rw [if_neg hm]
        by_cases hp : r0.metadata.priv = some true
        · rw [if_pos (by simp [hp]), List.getElem?_cons_zero]
          simp [hp]
        · rw [if_neg (by simp [hp]), List.getElem?_cons_zero]
          simp [hp]
    | succ i =>
      rw [List.getElem?_cons_succ] at h
      simp only [exportWritesFrom]
      by_cases hm : r0.metadata.id ≠ [] ∧ '/' ∈ r0.metadata.id
      · rw [if_pos hm, List.getElem?_cons_succ, ih idx i r h]
        have hps : privSingle r0 = false := by simp [privSingle, hm]
        simp [List.take_succ_cons, List.filter_cons, hps]
      · rw [if_neg hm]
        by_cases hp : r0.metadata.priv = some true
        · rw [if_pos (by simp [hp]), List.getElem?_cons_succ, ih (idx + 1) i r h]
          have hps : privSingle r0 = true := by simp [privSingle, hm, hp]
          have hcount : (((r0 :: rs).take (i + 1)).filter privSingle).length =
              ((rs.take i).filter privSingle).length + 1 := by
            simp [List.take_succ_cons, List.filter_cons, hps]
          rw [hcount]
          have harith : idx + 1 + ((rs.take i).filter privSingle).length =
              idx + (((rs.take i).filter privSingle).length + 1) := by omega
          rw [harith]
        · rw [if_neg (by simp [hp]), List.getElem?_cons_succ, ih idx i r h]
          have hps : privSingle r0 = false := by simp [privSingle, hp]
          simp [List.take_succ_cons, List.filter_cons, hps]

/-- **C10**: `exportToAgent` never consults the options (identical trees for
any two options values), writes exactly one file per rule (private rules
included), the i-th write's path is the encoding of the i-th rule's id with
the ordinal `1 +` the number of private single-segment rules among the
earlier rules (so only those are counted, in list order), while
`exportToCursor` and the single-file exporters (Copilot shown) keep a
private rule only when `includePrivate` is set. -/
theorem c10_export_private_handling (rules : List RuleBlock)
    (o1 o2 : ExportOptions) (r : RuleBlock) :
    exportToAgentModelO rules o1 = exportToAgentModelO rules o2 ∧
    (exportWrites rules).length = rules.length ∧
    (∀ i (ri : RuleBlock), rules[i]? = some ri →
      (exportWrites rules)[i]? =
        some (exportPath ri.metadata.id (decide (ri.metadata.priv = some true))
          (1 + ((rules.take i).filter privSingle).length), exportContent ri)) ∧
    (r ∈ cursorKept rules o1 ↔
      r ∈ rules ∧ (r.metadata.priv = some true → o1.includePrivate = true)) ∧
    (r ∈ copilotKept rules o1 ↔
      r ∈ rules ∧ (r.metadata.priv = some true → o1.includePrivate = true)) := by
  refine ⟨rfl, exportWritesFrom_length rules 1,
    fun i ri h => exportWritesFrom_get? rules 1 i ri h, ?_, ?_⟩
  · rw [cursorKept, List.mem_filter]
    constructor
    · rintro ⟨hr, hb⟩
      refine ⟨hr, fun hp => ?_⟩
      rw [hp] at hb
      simpa using hb
    · rintro ⟨hr, himp⟩
      refine ⟨hr, ?_⟩
      by_cases hp : r.metadata.priv = some true
      · simp [hp, himp hp]
      · simp [hp]
  · rw [copilotKept, List.mem_filter]
    constructor
    · rintro ⟨hr, hb⟩
      refine ⟨hr, fun hp => ?_⟩
      rw [hp] at hb
      simpa using hb
    · rintro ⟨hr, himp⟩
      refine ⟨hr, ?_⟩
      by_cases hp : r.metadata.priv = some true
      · simp [hp, himp hp]
      · simp [hp]

/-- Witness for C10 on a three-rule list (public, private single-segment,
private nested), applying the theorem at index 1 and at the private rule. -/
theorem c10_export_private_handling_witness :
    (1 < ([⟨{ id := "pub".data }, "P".data⟩,
        ⟨{ id := "sec".data, priv := some true }, "S".data⟩,
        ⟨{ id := "a/b".data, priv := some true }, "N".data⟩] :
        List RuleBlock).length) ∧
    (exportWrites [⟨{ id := "pub".data }, "P".data⟩,
        ⟨{ id := "sec".data, priv := some true }, "S".data⟩,
        ⟨{ id := "a/b".data, priv := some true }, "N".data⟩]).length = 3 ∧
    (⟨{ id := "sec".data, priv := some true }, "S".data⟩ : RuleBlock) ∉
      cursorKept [⟨{ id := "pub".data }, "P".data⟩,
        ⟨{ id := "sec".data, priv := some true }, "S".data⟩,
        ⟨{ id := "a/b".data, priv := some true }, "N".data⟩] {} := by
  refine ⟨by decide, ?_, ?_⟩
  · exact (c10_export_private_handling [⟨{ id := "pub".data }, "P".data⟩,
      ⟨{ id := "sec".data, priv := some true }, "S".data⟩,
      ⟨{ id := "a/b".data, priv := some true }, "N".data⟩] {} {}
      ⟨{ id := "sec".data, priv := some true }, "S".data⟩).2.1
  · intro hmem
    have h := ((c10_export_private_handling [⟨{ id := "pub".data }, "P".data⟩,
      ⟨{ id := "sec".data, priv := some true }, "S".data⟩,
      ⟨{ id := "a/b".data, priv := some true }, "N".data⟩] {} {}
      ⟨{ id := "sec".data, priv := some true }, "S".data⟩).2.2.2.1.mp hmem).2
    exact absurd (h (by decide)) (by decide)

end DotAgent
